import Mathlib

/-!
Shallow embedding of `src/stark/extract.py` (spectral aperture extraction).

Real-valued pixel data and trace positions are modelled as rationals.
Python float NaN (produced by `np.mean` of an empty slice) is modelled by
the two-constructor type `PyFloat`.  Python exceptions (`np.zeros` with a
negative dimension, `np.zeros` with the float dimension produced by
`np.sum([])`) are modelled by `Option`: `none` means the call raises.
-/

namespace Stark

/-- Python `round` (round-half-to-even, as used by `int(round(x))` on
float values) transported to the rationals. -/
def pyRound (q : ℚ) : ℤ :=
  if q - ⌊q⌋ < 1/2 then ⌊q⌋
  else if 1/2 < q - ⌊q⌋ then ⌊q⌋ + 1
  else if ⌊q⌋ % 2 = 0 then ⌊q⌋ else ⌊q⌋ + 1

/-- A Python float value: either NaN or a (rational) number. -/
inductive PyFloat where
  | nan : PyFloat
  | val : ℚ → PyFloat
deriving DecidableEq, Repr

instance : Inhabited PyFloat := ⟨PyFloat.val 0⟩

/-- Multiplication of Python floats: NaN propagates. -/
def PyFloat.mul : PyFloat → PyFloat → PyFloat
  | .val a, .val b => .val (a * b)
  | _, _ => .nan

/-- Lower window bound: `i0 = int(round(p - r))` clamped below at 0
(`if i0 < 0: i0 = 0`). -/
def win_i0 (p r : ℚ) : ℤ := max (pyRound (p - r)) 0

/-- Upper window bound: `i1 = int(round(p + r))`, set to `L - 1` when
`i1 >= L` (`if i1 >= frame.shape[0]: i1 = frame.shape[0] - 1`). -/
def win_i1 (L : ℕ) (p r : ℚ) : ℤ :=
  if (L : ℤ) ≤ pyRound (p + r) then (L : ℤ) - 1 else pyRound (p + r)

/-- Length of the extraction window `[i0, i1)` (the slice length, 0 when
`i1 ≤ i0`). -/
def winLen (L : ℕ) (p r : ℚ) : ℕ := (win_i1 L p r - win_i0 p r).toNat

/-- The values of the slice `g[i0:i1]` of a column (with `i0 ≥ 0`, as
guaranteed by the clamp in `win_i0`). -/
def sliceVals (g : ℕ → ℚ) (i0 i1 : ℤ) : List ℚ :=
  (List.range (i1 - i0).toNat).map (fun k => g (i0.toNat + k))

/-- Python `np.mean` of a list: NaN on the empty list. -/
def npMean (xs : List ℚ) : PyFloat :=
  if xs.length = 0 then .nan else .val (xs.sum / xs.length)

/-- One column of `aperture_extract`: the body of the `for col` loop.
Returns the pair written into `spec[col]` and `var[col]`; columns with an
out-of-range trace position keep their initial zeros. -/
def extractCol (L : ℕ) (fcol vcol : ℕ → ℚ) (p r : ℚ) (uniform : Bool) :
    PyFloat × PyFloat :=
  if p < 0 ∨ (L : ℚ) ≤ p then (.val 0, .val 0)
  else
    let i0 := win_i0 p r
    let i1 := win_i1 L p r
    if uniform then
      ((npMean (sliceVals fcol i0 i1)).mul (.val (r * 2)),
       (npMean (sliceVals vcol i0 i1)).mul (.val (r * 2)))
    else
      (.val (sliceVals fcol i0 i1).sum, .val (sliceVals vcol i0 i1).sum)

/-- Embedding of `aperture_extract(frame, variance, ord_pos, ap_rad, uniform)`.
`frame` and `variance` are indexed (row, column); the result is the pair of
the `spec` and `var` arrays, each of length `ncols`. -/
def aperture_extract (nrows ncols : ℕ) (frame variance : ℕ → ℕ → ℚ)
    (ord_pos : ℕ → ℚ) (ap_rad : ℚ) (uniform : Bool) :
    List PyFloat × List PyFloat :=
  ((List.range ncols).map fun col =>
      (extractCol nrows (fun i => frame i col) (fun i => variance i col)
        (ord_pos col) ap_rad uniform).1,
   (List.range ncols).map fun col =>
      (extractCol nrows (fun i => frame i col) (fun i => variance i col)
        (ord_pos col) ap_rad uniform).2)

/-- One row of the flat pixel-sample array built by `flux_coo`:
`(offset from trace, flux, variance, column index)`.  The column index is
stored as a float (`np.ones(npix)*col`), hence a rational here. -/
structure Sample where
  offset : ℚ
  flux : ℚ
  var : ℚ
  colIdx : ℚ
deriving DecidableEq, Repr

instance : Inhabited Sample := ⟨0, 0, 0, 0⟩

/-- The `col_array` built for one valid column of `flux_coo`: one sample
per row of the window `[i0, i1)`. -/
def colRun (L : ℕ) (fdat vdat : ℕ → ℕ → ℚ) (p r : ℚ) (col : ℕ) :
    List Sample :=
  let i0 := win_i0 p r
  let i1 := win_i1 L p r
  (List.range (i1 - i0).toNat).map fun k =>
    { offset := ((i0.toNat + k : ℕ) : ℚ) - p
      flux := fdat (i0.toNat + k) col
      var := vdat (i0.toNat + k) col
      colIdx := (col : ℚ) }

/-- Outcome of the loop body of `flux_coo` for one (integration, column)
pair: skipped (trace out of range), raising (`np.zeros` with the negative
dimension `npix = i1 - i0 < 0`), or a run of `npix ≥ 0` samples. -/
inductive ColRes where
  | skip : ColRes
  | err : ColRes
  | run : List Sample → ColRes
deriving DecidableEq

/-- The loop body of `flux_coo` for one (integration, column) pair. -/
def colRes (L : ℕ) (fdat vdat : ℕ → ℕ → ℚ) (p r : ℚ) (col : ℕ) : ColRes :=
  if p < 0 ∨ (L : ℚ) ≤ p then .skip
  else if win_i1 L p r < win_i0 p r then .err
  else .run (colRun L fdat vdat p r col)

/-- The nested `for integration / for col` loops of `flux_coo`, flattened
over the lexicographically ordered pair list.  State: the running cursor
`col_pos`.  Returns the emitted samples, the flat `(position, length)`
index entries in pair order, and the number of arrays appended to
`pix_list` (needed because `flux_coo` raises when that list ends empty). -/
def fluxLoop (L : ℕ) (f v : ℕ → ℕ → ℕ → ℚ) (P : ℕ → ℕ → ℚ) (r : ℚ) :
    ℕ → List (ℕ × ℕ) → Option (List Sample × (List (ℕ × ℕ) × ℕ))
  | _, [] => some ([], ([], 0))
  | cursor, q :: rest =>
    match colRes L (f q.1) (v q.1) (P q.1 q.2) r q.2 with
    | .err => none
    | .skip =>
      (fluxLoop L f v P r cursor rest).map
        (fun x => (x.1, ((cursor, 0) :: x.2.1, x.2.2)))
    | .run s =>
      (fluxLoop L f v P r (cursor + s.length) rest).map
        (fun x => (s ++ x.1, ((cursor, s.length) :: x.2.1, x.2.2 + 1)))

/-- The (integration, column) pairs in iteration order of `flux_coo`:
integration-major, column-minor. -/
def pairList (nints ncols : ℕ) : List (ℕ × ℕ) :=
  ((List.range nints).map (fun it => (List.range ncols).map (Prod.mk it))).flatten

/-- Embedding of `flux_coo(frame, variance, ord_pos, ap_rad)` on a cube of
shape `[nints, L, ncols]`.  Returns `none` when the Python code raises:
either `np.zeros((npix, 4))` with `npix < 0` (ValueError), or, when every
pair was skipped so `pix_list` stays empty, `num_entries = np.sum([])` is
the float `0.0` and `np.zeros((0.0, 4))` rejects the non-integer dimension
(TypeError).  Otherwise returns the flat sample list and the
`[nints, ncols, 2]` index table as a list of rows. -/
def flux_coo (nints L ncols : ℕ) (f v : ℕ → ℕ → ℕ → ℚ) (P : ℕ → ℕ → ℚ)
    (r : ℚ) : Option (List Sample × List (List (ℕ × ℕ))) :=
  match fluxLoop L f v P r 0 (pairList nints ncols) with
  | none => none
  | some (pix, tbFlat, k) =>
    if k = 0 then none
    else some (pix, (List.range nints).map
      (fun it => (tbFlat.drop (it * ncols)).take ncols))

/-- The normalization factor before flooring: the supplied reference
spectrum value if present, else the flux sum `s` over the column slice. -/
def refNorm (rspec : Option (ℕ → ℕ → ℚ)) (it col : ℕ) (s : ℚ) : ℚ :=
  match rspec with
  | none => s
  | some sp => sp it col

/-- One slice assignment of `norm_flux_coo`: rescales positions
`[ind0, ind1)` of `arr` from the original `pix`, leaving other positions
and the offset/column fields untouched. -/
def normPass (pix : List Sample) (arr : List Sample) (ind0 ind1 : ℕ)
    (norm : ℚ) : List Sample :=
  arr.mapIdx fun j a =>
    if ind0 ≤ j ∧ j < ind1 then
      { a with flux := (pix.getD j default).flux / norm
               var := (pix.getD j default).var / norm ^ 2 }
    else a

/-- The loop body of `norm_flux_coo` for one (integration, column) pair:
reads `ind0 = col_array_pos[it, col, 0]` and
`ind1 = ind0 + col_array_pos[it, col, 1]` from the table, computes the
norm (pixel-flux sum over the slice, or the reference spectrum value),
floors it at `min_norm = 0.01`, and rescales the slice of `arr` from the
original `pix`. -/
def normStep (pix : List Sample) (tb : List (List (ℕ × ℕ)))
    (rspec : Option (ℕ → ℕ → ℚ)) (arr : List Sample) (q : ℕ × ℕ) :
    List Sample :=
  let e := (tb.getD q.1 []).getD q.2 (0, 0)
  let ind0 := e.1
  let ind1 := e.1 + e.2
  let s := (((pix.drop ind0).take (ind1 - ind0)).map Sample.flux).sum
  let norm := max (refNorm rspec q.1 q.2 s) (1/100)
  normPass pix arr ind0 ind1 norm

/-- Embedding of `norm_flux_coo(pix_array, col_array_pos, spec)`: iterates
`range(nints) × range(ncols)` (shape of the index table) in
integration-major order, applying `normStep` to a copy of `pix_array`. -/
def norm_flux_coo (pix : List Sample) (tb : List (List (ℕ × ℕ)))
    (rspec : Option (ℕ → ℕ → ℚ)) : List Sample :=
  (pairList tb.length (tb.headD []).length).foldl (normStep pix tb rspec) pix

/-! ### Helper definitions used by the flux_coo characterization -/

/-- The loop-body outcome of `flux_coo` at a given (integration, column)
pair of the cube. -/
def resAt (L : ℕ) (f v : ℕ → ℕ → ℕ → ℚ) (P : ℕ → ℕ → ℚ) (r : ℚ)
    (q : ℕ × ℕ) : ColRes :=
  colRes L (f q.1) (v q.1) (P q.1 q.2) r q.2

/-- The samples emitted for a pair (empty when skipped or raising). -/
def runAt (L : ℕ) (f v : ℕ → ℕ → ℕ → ℚ) (P : ℕ → ℕ → ℚ) (r : ℚ)
    (q : ℕ × ℕ) : List Sample :=
  match resAt L f v P r q with
  | .run s => s
  | _ => []

/-- The recorded sample count for a pair. -/
def cntAt (L : ℕ) (f v : ℕ → ℕ → ℕ → ℚ) (P : ℕ → ℕ → ℚ) (r : ℚ)
    (q : ℕ × ℕ) : ℕ :=
  (runAt L f v P r q).length

/-- Whether the pair appends an array to `pix_list`. -/
def isRunB (L : ℕ) (f v : ℕ → ℕ → ℕ → ℚ) (P : ℕ → ℕ → ℚ) (r : ℚ)
    (q : ℕ × ℕ) : Bool :=
  match resAt L f v P r q with
  | .run _ => true
  | _ => false

/-- Whether the pair raises (negative `npix`). -/
def isErrB (L : ℕ) (f v : ℕ → ℕ → ℕ → ℚ) (P : ℕ → ℕ → ℚ) (r : ℚ)
    (q : ℕ × ℕ) : Bool :=
  match resAt L f v P r q with
  | .err => true
  | _ => false

/-- The index entries `(position, length)` produced by threading a cursor
through a list of items with given counts. -/
def startsOf (cnt : α → ℕ) : ℕ → List α → List (ℕ × ℕ)
  | _, [] => []
  | cursor, q :: rest => (cursor, cnt q) :: startsOf cnt (cursor + cnt q) rest

/-- Total count recorded in the index table for all pairs lexicographically
before (it, col): the value of the running cursor at that pair. -/
def countsBefore (tb : List (List (ℕ × ℕ))) (it col : ℕ) : ℕ :=
  ((tb.take it).map (fun row => (row.map Prod.snd).sum)).sum +
    (((tb.getD it []).take col).map Prod.snd).sum

/-- Sum of the flux field over the slice of `pix` described by a table
entry `(start, count)`. -/
def colFluxSum (pix : List Sample) (e : ℕ × ℕ) : ℚ :=
  (((pix.drop e.1).take e.2).map Sample.flux).sum

/-! ### Basic lemmas -/

theorem pyRound_ge (q : ℚ) : q - 1/2 ≤ (pyRound q : ℚ) := by
  have h0 : (⌊q⌋ : ℚ) ≤ q := Int.floor_le q
  have h1 : q < ⌊q⌋ + 1 := Int.lt_floor_add_one q
  unfold pyRound
  split
  · linarith
  · split
    · push_cast; linarith
    · split
      · linarith
      · push_cast; linarith

theorem pyRound_le (q : ℚ) : (pyRound q : ℚ) ≤ q + 1/2 := by
  have h0 : (⌊q⌋ : ℚ) ≤ q := Int.floor_le q
  unfold pyRound
  split
  · linarith
  · rename_i h
    push_neg at h
    split
    · push_cast; linarith
    · rename_i h2
      push_neg at h2
      have heq : q - ⌊q⌋ = 1/2 := le_antisymm h2 h
      split
      · linarith
      · push_cast; linarith

theorem pyRound_nonneg {q : ℚ} (h : 0 ≤ q) : 0 ≤ pyRound q := by
  by_contra hneg
  push_neg at hneg
  have h3 : pyRound q ≤ -1 := by omega
  have h4 : (pyRound q : ℚ) ≤ -1 := by exact_mod_cast h3
  have h1 := pyRound_ge q
  linarith

theorem getD_map_range {α : Type} (f : ℕ → α) {n i : ℕ} (d : α) (h : i < n) :
    ((List.range n).map f).getD i d = f i := by
  simp [List.getD_eq_getElem?_getD, List.getElem?_map, List.getElem?_range, h]

theorem list_sum_range_eq (f : ℕ → ℚ) (n : ℕ) :
    ((List.range n).map f).sum = ∑ k in Finset.range n, f k := by
  induction n with
  | zero => simp
  | succ m ih =>
    rw [List.range_succ, List.map_append, List.sum_append, Finset.sum_range_succ, ih]
    simp

theorem sliceVals_sum (g : ℕ → ℚ) (i0 i1 : ℤ) :
    (sliceVals g i0 i1).sum = ∑ k in Finset.range (i1 - i0).toNat, g (i0.toNat + k) := by
  rw [sliceVals, list_sum_range_eq]

theorem sliceVals_length (g : ℕ → ℚ) (i0 i1 : ℤ) :
    (sliceVals g i0 i1).length = (i1 - i0).toNat := by
  simp [sliceVals]

theorem getD_map_lt {α β : Type} (f : α → β) {l : List α} {j : ℕ}
    (h : j < l.length) (d0 : β) (d : α) :
    (l.map f).getD j d0 = f (l.getD j d) := by
  simp [List.getD_eq_getElem?_getD, List.getElem?_map, List.getElem?_eq_getElem, h]

theorem getD_drop_take {α : Type} (l : List α) (a m j : ℕ) (d : α) (h : j < m) :
    ((l.drop a).take m).getD j d = l.getD (a + j) d := by
  simp [List.getD_eq_getElem?_getD, List.getElem?_take, h, List.getElem?_drop]

theorem startsOf_length {α : Type} (cnt : α → ℕ) (l : List α) :
    ∀ cursor, (startsOf cnt cursor l).length = l.length := by
  induction l with
  | nil => intro cursor; rfl
  | cons a t ih => intro cursor; simp [startsOf, ih]

theorem startsOf_map_snd {α : Type} (cnt : α → ℕ) (l : List α) :
    ∀ cursor, (startsOf cnt cursor l).map Prod.snd = l.map cnt := by
  induction l with
  | nil => intro cursor; rfl
  | cons a t ih => intro cursor; simp [startsOf, ih]

theorem startsOf_take {α : Type} (cnt : α → ℕ) (l : List α) :
    ∀ cursor j, (startsOf cnt cursor l).take j = startsOf cnt cursor (l.take j) := by
  induction l with
  | nil => intro cursor j; simp [startsOf]
  | cons a t ih =>
    intro cursor j
    cases j with
    | zero => simp [startsOf]
    | succ m => simp [startsOf, ih]

theorem startsOf_getD {α : Type} (cnt : α → ℕ) (d : α) (l : List α) :
    ∀ cursor j, j < l.length →
      (startsOf cnt cursor l).getD j (0, 0)
        = (cursor + ((l.take j).map cnt).sum, cnt (l.getD j d)) := by
  induction l with
  | nil => intro cursor j h; simp at h
  | cons a t ih =>
    intro cursor j h
    cases j with
    | zero => simp [startsOf]
    | succ m =>
      have hm : m < t.length := by simpa using h
      simp only [startsOf, List.getD_cons_succ, List.take_succ_cons, List.map_cons,
        List.sum_cons]
      rw [ih (cursor + cnt a) m hm]
      ring_nf

theorem startsOf_fst_ge {α : Type} (cnt : α → ℕ) (l : List α) :
    ∀ cursor e, e ∈ startsOf cnt cursor l → cursor ≤ e.1 := by
  induction l with
  | nil => intro cursor e he; simp [startsOf] at he
  | cons a t ih =>
    intro cursor e he
    simp only [startsOf, List.mem_cons] at he
    rcases he with he | he
    · subst he; exact le_refl _
    · exact le_trans (Nat.le_add_right _ _) (ih _ _ he)

theorem startsOf_pairwise {α : Type} (cnt : α → ℕ) (l : List α) :
    ∀ cursor, (startsOf cnt cursor l).Pairwise (fun a b => a.1 ≤ b.1) := by
  induction l with
  | nil => intro cursor; simp [startsOf]
  | cons a t ih =>
    intro cursor
    simp only [startsOf, List.pairwise_cons]
    refine ⟨fun e he => ?_, ih _⟩
    exact le_trans (Nat.le_add_right _ _) (startsOf_fst_ge cnt t _ e he)

theorem flatten_getD {α : Type} (d : α) (ls : List (List α)) :
    ∀ j k, j < ls.length → k < (ls.getD j []).length →
      ls.flatten.getD ((((ls.take j).map List.length).sum) + k) d
        = (ls.getD j []).getD k d := by
  induction ls with
  | nil => intro j k h; simp at h
  | cons hd t ih =>
    intro j k hj hk
    cases j with
    | zero =>
      simp only [List.getD_cons_zero] at hk ⊢
      simp only [List.take_zero, List.map_nil, List.sum_nil, Nat.zero_add,
        List.flatten_cons]
      simp [List.getD_eq_getElem?_getD, List.getElem?_append_left hk]
    | succ m =>
      have hm : m < t.length := by simpa using hj
      simp only [List.getD_cons_succ] at hk ⊢
      simp only [List.take_succ_cons, List.map_cons, List.sum_cons, List.flatten_cons]
      rw [Nat.add_assoc]
      rw [List.getD_eq_getElem?_getD,
        List.getElem?_append_right (Nat.le_add_right _ _), Nat.add_sub_cancel_left,
        ← List.getD_eq_getElem?_getD]
      exact ih m k hm hk

theorem chunk_flatten_take {α : Type} (c : ℕ) :
    ∀ (n : ℕ) (l : List α),
      ((List.range n).map (fun i => (l.drop (i * c)).take c)).flatten = l.take (n * c) := by
  intro n
  induction n with
  | zero => intro l; simp
  | succ m ih =>
    intro l
    rw [List.range_succ, List.map_append, List.flatten_append]
    simp only [List.map_cons, List.map_nil, List.flatten_cons, List.flatten_nil,
      List.append_nil]
    rw [ih, Nat.succ_mul, List.take_add]

/-! ### Structural characterization of flux_coo -/

theorem fluxLoop_eq (L : ℕ) (f v : ℕ → ℕ → ℕ → ℚ) (P : ℕ → ℕ → ℚ) (r : ℚ)
    (ps : List (ℕ × ℕ)) :
    ∀ cursor, fluxLoop L f v P r cursor ps =
      if ps.any (isErrB L f v P r) then none
      else some ((ps.map (runAt L f v P r)).flatten,
        (startsOf (cntAt L f v P r) cursor ps, ps.countP (isRunB L f v P r))) := by
  induction ps with
  | nil => intro cursor; simp [fluxLoop, startsOf]
  | cons q rest ih =>
    intro cursor
    rcases hres : colRes L (f q.1) (v q.1) (P q.1 q.2) r q.2 with _ | _ | s
    · have hq : isErrB L f v P r q = false := by simp [isErrB, resAt, hres]
      have hrun : isRunB L f v P r q = false := by simp [isRunB, resAt, hres]
      have hruns : runAt L f v P r q = [] := by simp [runAt, resAt, hres]
      have hcnt : cntAt L f v P r q = 0 := by simp [cntAt, hruns]
      simp only [fluxLoop, hres, ih]
      by_cases herr : rest.any (isErrB L f v P r)
      · simp [herr, hq]
      · simp [herr, hq, hrun, hruns, hcnt, startsOf, List.countP_cons]
    · have hq : isErrB L f v P r q = true := by simp [isErrB, resAt, hres]
      simp only [fluxLoop, hres]
      simp [hq]
    · have hq : isErrB L f v P r q = false := by simp [isErrB, resAt, hres]
      have hrun : isRunB L f v P r q = true := by simp [isRunB, resAt, hres]
      have hruns : runAt L f v P r q = s := by simp [runAt, resAt, hres]
      have hcnt : cntAt L f v P r q = s.length := by simp [cntAt, hruns]
      simp only [fluxLoop, hres, ih]
      by_cases herr : rest.any (isErrB L f v P r)
      · simp [herr, hq]
      · simp [herr, hq, hrun, hruns, hcnt, startsOf, List.countP_cons]

/-- Success characterization of `flux_coo`: the flat sample list is the
concatenation of the per-pair runs in lexicographic pair order, and the
index table rows are the `ncols`-sized chunks of the cursor-threaded
`(position, length)` entries. -/
theorem flux_coo_eq_some (nints L ncols : ℕ) (f v : ℕ → ℕ → ℕ → ℚ)
    (P : ℕ → ℕ → ℚ) (r : ℚ) (pix : List Sample) (tb : List (List (ℕ × ℕ)))
    (hs : flux_coo nints L ncols f v P r = some (pix, tb)) :
    (pairList nints ncols).any (isErrB L f v P r) = false ∧
    pix = ((pairList nints ncols).map (runAt L f v P r)).flatten ∧
    tb = (List.range nints).map (fun it =>
      ((startsOf (cntAt L f v P r) 0 (pairList nints ncols)).drop (it * ncols)).take
        ncols) ∧
    (pairList nints ncols).countP (isRunB L f v P r) ≠ 0 := by
  unfold flux_coo at hs
  rw [fluxLoop_eq] at hs
  by_cases herr : (pairList nints ncols).any (isErrB L f v P r)
  · rw [if_pos herr] at hs
    cases hs
  · rw [if_neg herr] at hs
    simp only at hs
    by_cases hk : (pairList nints ncols).countP (isRunB L f v P r) = 0
    · rw [if_pos hk] at hs
      cases hs
    · rw [if_neg hk] at hs
      have h2 := Option.some.inj hs
      have hpix := congrArg Prod.fst h2
      have htb := congrArg Prod.snd h2
      simp only at hpix htb
      exact ⟨by simpa using herr, hpix.symm, htb.symm, hk⟩

theorem pairList_length (nints ncols : ℕ) :
    (pairList nints ncols).length = nints * ncols := by
  rw [pairList, List.length_flatten, List.map_map]
  have hc : (List.length ∘ fun it : ℕ => (List.range ncols).map (Prod.mk it))
      = fun _ => ncols := by
    funext it
    simp
  rw [hc]
  simp [List.map_const', List.sum_replicate, smul_eq_mul, Nat.mul_comm]

theorem pairList_prefix_length (nints ncols it : ℕ) (hit : it ≤ nints) :
    ((((List.range nints).map
        (fun i => (List.range ncols).map (Prod.mk i))).take it).map
          List.length).sum = it * ncols := by
  rw [← List.map_take, List.take_range, Nat.min_eq_left hit, List.map_map]
  have hc : (List.length ∘ fun i : ℕ => (List.range ncols).map (Prod.mk i))
      = fun _ => ncols := by
    funext i
    simp
  rw [hc]
  simp [List.map_const', List.sum_replicate, smul_eq_mul, Nat.mul_comm]

theorem pairList_getD (nints ncols it col : ℕ) (hit : it < nints)
    (hcol : col < ncols) :
    (pairList nints ncols).getD (it * ncols + col) (0, 0) = (it, col) := by
  rw [pairList]
  have hlen : it < ((List.range nints).map
      (fun i => (List.range ncols).map (Prod.mk i))).length := by
    simpa using hit
  have hget : ((List.range nints).map
      (fun i => (List.range ncols).map (Prod.mk i))).getD it []
        = (List.range ncols).map (Prod.mk it) := by
    rw [getD_map_range _ _ hit]
  have hklen : col < (((List.range nints).map
      (fun i => (List.range ncols).map (Prod.mk i))).getD it []).length := by
    rw [hget]
    simpa using hcol
  have h := flatten_getD ((0, 0) : ℕ × ℕ) _ it col hlen hklen
  rw [pairList_prefix_length nints ncols it (Nat.le_of_lt hit)] at h
  rw [h, hget, getD_map_range _ _ hcol]

theorem pair_index_lt (nints ncols it col : ℕ) (hit : it < nints)
    (hcol : col < ncols) : it * ncols + col < nints * ncols := by
  have h1 : it * ncols + col < (it + 1) * ncols := by
    rw [Nat.succ_mul]
    omega
  exact Nat.lt_of_lt_of_le h1 (Nat.mul_le_mul_right ncols hit)

theorem pairList_mem (nints ncols : ℕ) (q : ℕ × ℕ) :
    q ∈ pairList nints ncols ↔ q.1 < nints ∧ q.2 < ncols := by
  simp only [pairList, List.mem_flatten, List.mem_map, List.mem_range]
  constructor
  · rintro ⟨l, ⟨i, hi, rfl⟩, hq⟩
    rcases List.mem_map.mp hq with ⟨c, hc, rfl⟩
    exact ⟨hi, List.mem_range.mp hc⟩
  · rintro ⟨h1, h2⟩
    refine ⟨(List.range ncols).map (Prod.mk q.1), ⟨q.1, h1, rfl⟩, ?_⟩
    exact List.mem_map.mpr ⟨q.2, List.mem_range.mpr h2, rfl⟩

theorem colRun_length (L : ℕ) (fdat vdat : ℕ → ℕ → ℚ) (p r : ℚ) (col : ℕ) :
    (colRun L fdat vdat p r col).length = winLen L p r := by
  simp [colRun, winLen]

theorem colRun_getD (L : ℕ) (fdat vdat : ℕ → ℕ → ℚ) (p r : ℚ) (col k : ℕ)
    (hk : k < winLen L p r) :
    (colRun L fdat vdat p r col).getD k default
      = { offset := (((win_i0 p r).toNat + k : ℕ) : ℚ) - p
          flux := fdat ((win_i0 p r).toNat + k) col
          var := vdat ((win_i0 p r).toNat + k) col
          colIdx := (col : ℚ) } := by
  simp only [colRun]
  rw [getD_map_range _ _ (show k < (win_i1 L p r - win_i0 p r).toNat from hk)]

theorem flux_coo_table_entry (nints L ncols : ℕ) (f v : ℕ → ℕ → ℕ → ℚ)
    (P : ℕ → ℕ → ℚ) (r : ℚ) (pix : List Sample) (tb : List (List (ℕ × ℕ)))
    (hs : flux_coo nints L ncols f v P r = some (pix, tb))
    (it col : ℕ) (hit : it < nints) (hcol : col < ncols) :
    (tb.getD it []).getD col (0, 0)
      = ((((pairList nints ncols).take (it * ncols + col)).map
            (cntAt L f v P r)).sum,
         cntAt L f v P r (it, col)) := by
  obtain ⟨herr, hpix, htb, hk⟩ := flux_coo_eq_some _ _ _ _ _ _ _ _ _ hs
  have hidx := pair_index_lt nints ncols it col hit hcol
  have h1 : tb.getD it []
      = ((startsOf (cntAt L f v P r) 0 (pairList nints ncols)).drop
          (it * ncols)).take ncols := by
    rw [htb, getD_map_range _ _ hit]
  rw [h1, getD_drop_take _ _ _ _ _ hcol]
  rw [startsOf_getD (cntAt L f v P r) ((0, 0) : ℕ × ℕ) _ 0 _
    (by rw [pairList_length]; exact hidx)]
  rw [pairList_getD nints ncols it col hit hcol]
  simp

theorem flux_coo_pix_entry (nints L ncols : ℕ) (f v : ℕ → ℕ → ℕ → ℚ)
    (P : ℕ → ℕ → ℚ) (r : ℚ) (pix : List Sample) (tb : List (List (ℕ × ℕ)))
    (hs : flux_coo nints L ncols f v P r = some (pix, tb))
    (it col : ℕ) (hit : it < nints) (hcol : col < ncols)
    (k : ℕ) (hk : k < cntAt L f v P r (it, col)) :
    pix.getD ((((pairList nints ncols).take (it * ncols + col)).map
        (cntAt L f v P r)).sum + k) default
      = (runAt L f v P r (it, col)).getD k default := by
  obtain ⟨herr, hpix, htb, hk0⟩ := flux_coo_eq_some _ _ _ _ _ _ _ _ _ hs
  have hidx := pair_index_lt nints ncols it col hit hcol
  have hidx2 : it * ncols + col < (pairList nints ncols).length := by
    rw [pairList_length]
    exact hidx
  have hj : it * ncols + col
      < ((pairList nints ncols).map (runAt L f v P r)).length := by
    rw [List.length_map]
    exact hidx2
  have hblock : ((pairList nints ncols).map (runAt L f v P r)).getD
      (it * ncols + col) [] = runAt L f v P r (it, col) := by
    rw [getD_map_lt _ hidx2 _ ((0, 0) : ℕ × ℕ),
      pairList_getD nints ncols it col hit hcol]
  have hpre : ((((pairList nints ncols).map (runAt L f v P r)).take
        (it * ncols + col)).map List.length).sum
      = (((pairList nints ncols).take (it * ncols + col)).map
          (cntAt L f v P r)).sum := by
    rw [← List.map_take, List.map_map]
    rfl
  have h := flatten_getD (default : Sample)
    ((pairList nints ncols).map (runAt L f v P r)) (it * ncols + col) k hj
    (by rw [hblock]; exact hk)
  rw [hpre] at h
  rw [hpix, h, hblock]

theorem row_sums_eq_flatten (ls : List (List (ℕ × ℕ))) :
    (ls.map (fun row => (row.map Prod.snd).sum)).sum
      = (ls.flatten.map Prod.snd).sum := by
  induction ls with
  | nil => rfl
  | cons hd t ih => simp [List.flatten_cons, ih]

theorem countsBefore_eq (nints L ncols : ℕ) (f v : ℕ → ℕ → ℕ → ℚ)
    (P : ℕ → ℕ → ℚ) (r : ℚ) (pix : List Sample) (tb : List (List (ℕ × ℕ)))
    (hs : flux_coo nints L ncols f v P r = some (pix, tb))
    (it col : ℕ) (hit : it < nints) (hcol : col < ncols) :
    countsBefore tb it col
      = (((pairList nints ncols).take (it * ncols + col)).map
          (cntAt L f v P r)).sum := by
  obtain ⟨herr, hpix, htb, hk⟩ := flux_coo_eq_some _ _ _ _ _ _ _ _ _ hs
  have htake : tb.take it = (List.range it).map
      (fun i => ((startsOf (cntAt L f v P r) 0 (pairList nints ncols)).drop
        (i * ncols)).take ncols) := by
    rw [htb, ← List.map_take, List.take_range, Nat.min_eq_left (Nat.le_of_lt hit)]
  have h1 : tb.getD it []
      = ((startsOf (cntAt L f v P r) 0 (pairList nints ncols)).drop
          (it * ncols)).take ncols := by
    rw [htb, getD_map_range _ _ hit]
  rw [countsBefore, htake, h1, row_sums_eq_flatten, chunk_flatten_take,
    List.take_take, Nat.min_eq_left (Nat.le_of_lt hcol)]
  rw [← List.sum_append, ← List.map_append, ← List.take_add, startsOf_take,
    startsOf_map_snd]

/-! ### Claims about aperture_extract -/

/-- C1: for a column with in-range trace position `p`, `aperture_extract`
windows by `i0 = round(p - r)` clamped up to 0 and
`i1 = round(p + r)` set to `nrows - 1` when `i1 ≥ nrows`, then returns the
window sums when `uniform` is false, and the window means rescaled by the
nominal width `2 * ap_rad` (NaN on an empty window) when `uniform` is
true. -/
theorem aperture_extract_col_spec (nrows ncols : ℕ) (frame variance : ℕ → ℕ → ℚ)
    (ord_pos : ℕ → ℚ) (r : ℚ) (col : ℕ) (hcol : col < ncols)
    (h0 : 0 ≤ ord_pos col) (h1 : ord_pos col < nrows) :
    (aperture_extract nrows ncols frame variance ord_pos r false).1.getD col default
        = .val (∑ k in Finset.range (winLen nrows (ord_pos col) r),
            frame ((win_i0 (ord_pos col) r).toNat + k) col) ∧
    (aperture_extract nrows ncols frame variance ord_pos r false).2.getD col default
        = .val (∑ k in Finset.range (winLen nrows (ord_pos col) r),
            variance ((win_i0 (ord_pos col) r).toNat + k) col) ∧
    (aperture_extract nrows ncols frame variance ord_pos r true).1.getD col default
        = (if winLen nrows (ord_pos col) r = 0 then PyFloat.nan
           else .val ((∑ k in Finset.range (winLen nrows (ord_pos col) r),
             frame ((win_i0 (ord_pos col) r).toNat + k) col)
               / (winLen nrows (ord_pos col) r) * (2 * r))) ∧
    (aperture_extract nrows ncols frame variance ord_pos r true).2.getD col default
        = (if winLen nrows (ord_pos col) r = 0 then PyFloat.nan
           else .val ((∑ k in Finset.range (winLen nrows (ord_pos col) r),
             variance ((win_i0 (ord_pos col) r).toNat + k) col)
               / (winLen nrows (ord_pos col) r) * (2 * r))) := by
  have hcond : ¬(ord_pos col < 0 ∨ (nrows : ℚ) ≤ ord_pos col) := by
    push_neg
    exact ⟨h0, h1⟩
  have hmean : ∀ g : ℕ → ℚ,
      (npMean (sliceVals g (win_i0 (ord_pos col) r) (win_i1 nrows (ord_pos col) r))).mul
          (.val (r * 2))
        = (if winLen nrows (ord_pos col) r = 0 then PyFloat.nan
           else .val ((∑ k in Finset.range (winLen nrows (ord_pos col) r),
               g ((win_i0 (ord_pos col) r).toNat + k))
             / (winLen nrows (ord_pos col) r) * (2 * r))) := by
    intro g
    by_cases hz : winLen nrows (ord_pos col) r = 0
    · rw [if_pos hz]
      rw [npMean, if_pos (by rw [sliceVals_length]; exact hz)]
      rfl
    · rw [if_neg hz]
      rw [npMean, if_neg (by rw [sliceVals_length]; exact hz)]
      rw [PyFloat.mul, sliceVals_sum, sliceVals_length]
      rw [mul_comm r 2]
      rfl
  refine ⟨?_, ?_, ?_, ?_⟩
  · simp only [aperture_extract]
    rw [getD_map_range _ default hcol]
    simp only [extractCol, if_neg hcond, Bool.false_eq_true, if_false]
    rw [sliceVals_sum]
    rfl
  · simp only [aperture_extract]
    rw [getD_map_range _ default hcol]
    simp only [extractCol, if_neg hcond, Bool.false_eq_true, if_false]
    rw [sliceVals_sum]
    rfl
  · simp only [aperture_extract]
    rw [getD_map_range _ default hcol]
    simp only [extractCol, if_neg hcond, if_true]
    exact hmean (fun i => frame i col)
  · simp only [aperture_extract]
    rw [getD_map_range _ default hcol]
    simp only [extractCol, if_neg hcond, if_true]
    exact hmean (fun i => variance i col)

/-- Witness for C1 at the concrete scenario of a 5-row, 3-column frame of
ones with trace position 2 and radius 1 (window `[1, 3)`). -/
theorem aperture_extract_col_spec_witness :
    0 < 3 ∧ ((0:ℚ) ≤ 2 ∧ (2:ℚ) < ((5:ℕ):ℚ)) ∧
    ((aperture_extract 5 3 (fun _ _ => 1) (fun _ _ => 1) (fun _ => 2) 1 false).1.getD 0 default
        = .val (∑ _k in Finset.range (winLen 5 2 1), (1:ℚ)) ∧
     (aperture_extract 5 3 (fun _ _ => 1) (fun _ _ => 1) (fun _ => 2) 1 false).2.getD 0 default
        = .val (∑ _k in Finset.range (winLen 5 2 1), (1:ℚ)) ∧
     (aperture_extract 5 3 (fun _ _ => 1) (fun _ _ => 1) (fun _ => 2) 1 true).1.getD 0 default
        = (if winLen 5 2 1 = 0 then PyFloat.nan
           else .val ((∑ _k in Finset.range (winLen 5 2 1), (1:ℚ))
             / (winLen 5 2 1) * (2 * 1))) ∧
     (aperture_extract 5 3 (fun _ _ => 1) (fun _ _ => 1) (fun _ => 2) 1 true).2.getD 0 default
        = (if winLen 5 2 1 = 0 then PyFloat.nan
           else .val ((∑ _k in Finset.range (winLen 5 2 1), (1:ℚ))
             / (winLen 5 2 1) * (2 * 1)))) :=
  ⟨by decide, ⟨by norm_num, by norm_num⟩,
   aperture_extract_col_spec 5 3 (fun _ _ => 1) (fun _ _ => 1) (fun _ => 2) 1 0
     (by decide) (by norm_num) (by norm_num)⟩

/-- C5 counterexample: with 10 rows, radius 1 and trace position 8.8 —
strictly inside `[radius, nrows - radius)` — the upper bound
`round(8.8 + 1) = 10` is clamped to 9, so the window width is 1 while
`round(p + r) - round(p - r) = 2`; the extracted sum covers a single row. -/
theorem win_width_counterexample :
    ((1:ℚ) ≤ 44/5 ∧ (44/5 : ℚ) < ((10:ℕ):ℚ) - 1) ∧
    win_i1 10 (44/5) 1 - win_i0 (44/5) 1 ≠ pyRound (44/5 + 1) - pyRound (44/5 - 1) ∧
    (aperture_extract 10 1 (fun i _ => if i = 8 then 100 else 1) (fun _ _ => 1)
      (fun _ => 44/5) 1 false).1 = [PyFloat.val 100] := by
  refine ⟨⟨by norm_num, by norm_num⟩, ?_, ?_⟩
  · norm_num [win_i0, win_i1, pyRound]
  · norm_num [aperture_extract, extractCol, win_i0, win_i1, pyRound, sliceVals,
      List.range_succ]
    simp only [Int.reduceToNat]

/-- C5 amended: the window width used by `aperture_extract` equals
`round(p + r) - round(p - r)` for trace positions with `radius ≤ p` and
`p + radius < nrows - 1/2` (the original upper limit `p < nrows - radius`
does not prevent the top clamp from firing when `round(p + radius) ≥
nrows`). -/
theorem win_width_amended (L : ℕ) (p r : ℚ) (h0 : r ≤ p)
    (h1 : p + r < (L:ℚ) - 1/2) :
    win_i1 L p r - win_i0 p r = pyRound (p + r) - pyRound (p - r) := by
  have hge : 0 ≤ pyRound (p - r) := pyRound_nonneg (by linarith)
  have hle : (pyRound (p + r) : ℚ) ≤ (p + r) + 1/2 := pyRound_le _
  have hlt : pyRound (p + r) < (L:ℤ) := by
    have hq : (pyRound (p + r) : ℚ) < (L:ℚ) := by linarith
    exact_mod_cast hq
  rw [win_i1, if_neg (not_le.mpr hlt), win_i0, max_eq_left hge]

/-- Witness for the amended C5 at rows 10, trace 5, radius 1. -/
theorem win_width_amended_witness :
    ((1:ℚ) ≤ 5 ∧ (5:ℚ) + 1 < ((10:ℕ):ℚ) - 1/2) ∧
    win_i1 10 5 1 - win_i0 5 1 = pyRound (5 + 1) - pyRound (5 - 1) :=
  ⟨⟨by norm_num, by norm_num⟩, win_width_amended 10 5 1 (by norm_num) (by norm_num)⟩

/-- C10: with 10 rows, trace position 5 (valid) and radius 0.2 the window
`[round(4.8), round(5.2)) = [5, 5)` is empty: `uniform=True` yields NaN
(mean of an empty slice) for spectrum and variance, while `uniform=False`
yields 0 for the same column. -/
theorem aperture_uniform_nan_example :
    ((0:ℚ) ≤ 5 ∧ (5:ℚ) < ((10:ℕ):ℚ)) ∧
    aperture_extract 10 1 (fun _ _ => 1) (fun _ _ => 1) (fun _ => 5) (1/5) true
      = ([PyFloat.nan], [PyFloat.nan]) ∧
    aperture_extract 10 1 (fun _ _ => 1) (fun _ _ => 1) (fun _ => 5) (1/5) false
      = ([PyFloat.val 0], [PyFloat.val 0]) := by
  refine ⟨⟨by norm_num, by norm_num⟩, ?_, ?_⟩ <;>
    norm_num [aperture_extract, extractCol, win_i0, win_i1, pyRound, sliceVals,
      npMean, List.range_succ, Int.reduceToNat, PyFloat.mul]

/-! ### Claims about flux_coo -/

/-- C2: when `flux_coo` returns, each (integration, column) pair records as
starting offset the running cursor (the total count recorded for all
lexicographically earlier pairs, so a skipped pair leaves the cursor
unchanged and a processed one advances it by its count); an out-of-range
pair records count 0; an in-range pair records count `i1 - i0` and emits
one sample per window row with fields (row - trace, frame value, variance
value, column index). -/
theorem flux_coo_pair_record (nints L ncols : ℕ) (f v : ℕ → ℕ → ℕ → ℚ)
    (P : ℕ → ℕ → ℚ) (r : ℚ) (pix : List Sample) (tb : List (List (ℕ × ℕ)))
    (hs : flux_coo nints L ncols f v P r = some (pix, tb))
    (it col : ℕ) (hit : it < nints) (hcol : col < ncols) :
    ((tb.getD it []).getD col (0, 0)).1 = countsBefore tb it col ∧
    ((P it col < 0 ∨ (L : ℚ) ≤ P it col) →
      ((tb.getD it []).getD col (0, 0)).2 = 0) ∧
    (¬(P it col < 0 ∨ (L : ℚ) ≤ P it col) →
      ((tb.getD it []).getD col (0, 0)).2 = winLen L (P it col) r ∧
      ∀ k, k < winLen L (P it col) r →
        pix.getD (countsBefore tb it col + k) default
          = { offset := (((win_i0 (P it col) r).toNat + k : ℕ) : ℚ) - P it col
              flux := f it ((win_i0 (P it col) r).toNat + k) col
              var := v it ((win_i0 (P it col) r).toNat + k) col
              colIdx := (col : ℚ) }) := by
  have hentry := flux_coo_table_entry nints L ncols f v P r pix tb hs it col hit hcol
  have hcb := countsBefore_eq nints L ncols f v P r pix tb hs it col hit hcol
  obtain ⟨herr, hpix, htb, hk0⟩ := flux_coo_eq_some _ _ _ _ _ _ _ _ _ hs
  refine ⟨by rw [hentry, hcb], ?_, ?_⟩
  · intro hout
    have hres : resAt L f v P r (it, col) = .skip := by
      simp only [resAt, colRes]
      rw [if_pos hout]
    have : cntAt L f v P r (it, col) = 0 := by
      simp [cntAt, runAt, hres]
    rw [hentry]
    exact this
  · intro hin
    have hnoterr : isErrB L f v P r (it, col) = false := by
      have hmem : ((it, col) : ℕ × ℕ) ∈ pairList nints ncols :=
        (pairList_mem nints ncols (it, col)).mpr ⟨hit, hcol⟩
      cases hb : isErrB L f v P r (it, col) with
      | false => rfl
      | true =>
        exfalso
        have hany : (pairList nints ncols).any (isErrB L f v P r) = true :=
          List.any_eq_true.mpr ⟨_, hmem, hb⟩
        rw [hany] at herr
        cases herr
    have hwin : ¬ win_i1 L (P it col) r < win_i0 (P it col) r := by
      intro hlt
      have : resAt L f v P r (it, col) = .err := by
        simp only [resAt, colRes]
        rw [if_neg hin, if_pos hlt]
      simp [isErrB, this] at hnoterr
    have hres : resAt L f v P r (it, col)
        = .run (colRun L (f it) (v it) (P it col) r col) := by
      simp only [resAt, colRes]
      rw [if_neg hin, if_neg hwin]
    have hcnt : cntAt L f v P r (it, col) = winLen L (P it col) r := by
      simp [cntAt, runAt, hres, colRun_length]
    refine ⟨by rw [hentry]; exact hcnt, ?_⟩
    intro k hk
    have hpk := flux_coo_pix_entry nints L ncols f v P r pix tb hs it col hit hcol
      k (by rw [hcnt]; exact hk)
    rw [← hcb] at hpk
    rw [hpk]
    have hrun : runAt L f v P r (it, col)
        = colRun L (f it) (v it) (P it col) r col := by
      simp [runAt, hres]
    rw [hrun, colRun_getD L (f it) (v it) (P it col) r col k hk]

/-- Witness for C2 on a 1-integration, 5-row, 2-column cube with trace 2
and radius 1 (each column windows rows `[1, 3)`). -/
theorem flux_coo_pair_record_witness :
    flux_coo 1 5 2 (fun _ i j => (10 * i + j : ℚ)) (fun _ i j => (100 * i + j : ℚ))
        (fun _ _ => 2) 1
      = some
        ([{ offset := -1, flux := 10, var := 100, colIdx := 0 },
          { offset := 0, flux := 20, var := 200, colIdx := 0 },
          { offset := -1, flux := 11, var := 101, colIdx := 1 },
          { offset := 0, flux := 21, var := 201, colIdx := 1 }],
         [[(0, 2), (2, 2)]]) ∧
    0 < 1 ∧ 1 < 2 ∧
    ((([[((0:ℕ), (2:ℕ)), (2, 2)]].getD 0 []).getD 1 (0, 0)).1
        = countsBefore [[(0, 2), (2, 2)]] 0 1 ∧
     (((2:ℚ) < 0 ∨ ((5:ℕ) : ℚ) ≤ 2) →
       (([[((0:ℕ), (2:ℕ)), (2, 2)]].getD 0 []).getD 1 (0, 0)).2 = 0) ∧
     (¬((2:ℚ) < 0 ∨ ((5:ℕ) : ℚ) ≤ 2) →
       (([[((0:ℕ), (2:ℕ)), (2, 2)]].getD 0 []).getD 1 (0, 0)).2 = winLen 5 2 1 ∧
       ∀ k, k < winLen 5 2 1 →
         ([{ offset := -1, flux := 10, var := 100, colIdx := 0 },
           { offset := 0, flux := 20, var := 200, colIdx := 0 },
           { offset := -1, flux := 11, var := 101, colIdx := 1 },
           { offset := 0, flux := 21, var := 201, colIdx := 1 }].getD
             (countsBefore [[(0, 2), (2, 2)]] 0 1 + k) default : Sample)
           = { offset := (((win_i0 (2:ℚ) 1).toNat + k : ℕ) : ℚ) - 2
               flux := 10 * (((win_i0 (2:ℚ) 1).toNat + k : ℕ) : ℚ) + ((1:ℕ) : ℚ)
               var := 100 * (((win_i0 (2:ℚ) 1).toNat + k : ℕ) : ℚ) + ((1:ℕ) : ℚ)
               colIdx := ((1:ℕ) : ℚ) })) := by
  have hs : flux_coo 1 5 2 (fun _ i j => (10 * i + j : ℚ))
      (fun _ i j => (100 * i + j : ℚ)) (fun _ _ => 2) 1
      = some
        ([{ offset := -1, flux := 10, var := 100, colIdx := 0 },
          { offset := 0, flux := 20, var := 200, colIdx := 0 },
          { offset := -1, flux := 11, var := 101, colIdx := 1 },
          { offset := 0, flux := 21, var := 201, colIdx := 1 }],
         [[(0, 2), (2, 2)]]) := by
    norm_num [flux_coo, pairList, fluxLoop, colRes, colRun, win_i0, win_i1, pyRound,
      List.range_succ]
    simp only [Int.reduceToNat]
    norm_num [List.range_succ, Sample.mk.injEq]
  exact ⟨hs, by decide, by decide,
    flux_coo_pair_record 1 5 2 _ _ _ 1 _ _ hs 0 1 (by decide) (by decide)⟩

/-- C6: whenever `flux_coo` returns, the flat sample list length equals
the sum of all counts recorded in the index table; but on an input whose
trace positions are all invalid the code raises instead of returning an
empty list (`pix_list` stays empty, `num_entries = np.sum([])` is the
float `0.0`, and `np.zeros((0.0, 4))` rejects the non-integer dimension),
so the all-invalid case required by the claim fails on the code. -/
theorem flux_coo_length_sum_counts :
    (∀ (nints L ncols : ℕ) (f v : ℕ → ℕ → ℕ → ℚ) (P : ℕ → ℕ → ℚ) (r : ℚ)
        (pix : List Sample) (tb : List (List (ℕ × ℕ))),
      flux_coo nints L ncols f v P r = some (pix, tb) →
      pix.length = (tb.map (fun row => (row.map Prod.snd).sum)).sum) ∧
    flux_coo 1 3 2 (fun _ _ _ => 0) (fun _ _ _ => 0) (fun _ _ => -1) 1 = none := by
  constructor
  · intro nints L ncols f v P r pix tb hs
    obtain ⟨herr, hpix, htb, hk⟩ := flux_coo_eq_some _ _ _ _ _ _ _ _ _ hs
    have hlen : pix.length
        = ((pairList nints ncols).map (cntAt L f v P r)).sum := by
      rw [hpix, List.length_flatten, List.map_map]
      rfl
    have hlenF : (startsOf (cntAt L f v P r) 0 (pairList nints ncols)).length
        = nints * ncols := by
      rw [startsOf_length, pairList_length]
    rw [htb, row_sums_eq_flatten, chunk_flatten_take,
      List.take_of_length_le (le_of_eq hlenF), startsOf_map_snd]
    exact hlen
  · norm_num [flux_coo, pairList, fluxLoop, colRes, List.range_succ]

/-- Witness for the length invariant of C6 at a concrete cube. -/
theorem flux_coo_length_sum_counts_witness :
    flux_coo 1 5 2 (fun _ i j => (10 * i + j : ℚ)) (fun _ _ _ => 1)
        (fun _ _ => 2) 1
      = some
        ([{ offset := -1, flux := 10, var := 1, colIdx := 0 },
          { offset := 0, flux := 20, var := 1, colIdx := 0 },
          { offset := -1, flux := 11, var := 1, colIdx := 1 },
          { offset := 0, flux := 21, var := 1, colIdx := 1 }],
         [[(0, 2), (2, 2)]]) ∧
    ([{ offset := -1, flux := 10, var := 1, colIdx := 0 },
      { offset := 0, flux := 20, var := 1, colIdx := 0 },
      { offset := -1, flux := 11, var := 1, colIdx := 1 },
      { offset := 0, flux := 21, var := 1, colIdx := 1 }] : List Sample).length
      = (([[(0, 2), (2, 2)]] : List (List (ℕ × ℕ))).map
          (fun row => (row.map Prod.snd).sum)).sum := by
  have hs : flux_coo 1 5 2 (fun _ i j => (10 * i + j : ℚ)) (fun _ _ _ => 1)
      (fun _ _ => 2) 1
      = some
        ([{ offset := -1, flux := 10, var := 1, colIdx := 0 },
          { offset := 0, flux := 20, var := 1, colIdx := 0 },
          { offset := -1, flux := 11, var := 1, colIdx := 1 },
          { offset := 0, flux := 21, var := 1, colIdx := 1 }],
         [[(0, 2), (2, 2)]]) := by
    norm_num [flux_coo, pairList, fluxLoop, colRes, colRun, win_i0, win_i1, pyRound,
      List.range_succ]
    simp only [Int.reduceToNat]
    norm_num [List.range_succ, Sample.mk.injEq]
  exact ⟨hs, flux_coo_length_sum_counts.1 1 5 2 _ _ _ 1 _ _ hs⟩

/-- C7: when `flux_coo` returns, within each integration the starting
offsets in the index table are monotonically non-decreasing across
columns, and every sample in the slice `[start, start + count)` of the
flat list carries the column index of its column. -/
theorem flux_coo_monotone_and_column_field (nints L ncols : ℕ)
    (f v : ℕ → ℕ → ℕ → ℚ) (P : ℕ → ℕ → ℚ) (r : ℚ) (pix : List Sample)
    (tb : List (List (ℕ × ℕ)))
    (hs : flux_coo nints L ncols f v P r = some (pix, tb)) :
    (∀ row ∈ tb, row.Pairwise (fun a b => a.1 ≤ b.1)) ∧
    (∀ it col, it < nints → col < ncols →
      ∀ k, k < ((tb.getD it []).getD col (0, 0)).2 →
        (pix.getD (((tb.getD it []).getD col (0, 0)).1 + k) default).colIdx
          = (col : ℚ)) := by
  obtain ⟨herr, hpix, htb, hk0⟩ := flux_coo_eq_some _ _ _ _ _ _ _ _ _ hs
  constructor
  · intro row hrow
    rw [htb] at hrow
    rcases List.mem_map.mp hrow with ⟨it, _, rfl⟩
    have hsub : List.Sublist
        (((startsOf (cntAt L f v P r) 0 (pairList nints ncols)).drop
          (it * ncols)).take ncols)
        (startsOf (cntAt L f v P r) 0 (pairList nints ncols)) :=
      (List.take_sublist _ _).trans (List.drop_sublist _ _)
    exact List.Pairwise.sublist hsub
      (startsOf_pairwise (cntAt L f v P r) (pairList nints ncols) 0)
  · intro it col hit hcol k hk
    have hentry := flux_coo_table_entry nints L ncols f v P r pix tb hs it col hit hcol
    rw [hentry] at hk
    have hk2 : k < cntAt L f v P r (it, col) := hk
    rw [hentry]
    have hpk := flux_coo_pix_entry nints L ncols f v P r pix tb hs it col hit hcol k hk2
    show (pix.getD ((((pairList nints ncols).take (it * ncols + col)).map
        (cntAt L f v P r)).sum + k) default).colIdx = (col : ℚ)
    rw [hpk]
    by_cases hin : P it col < 0 ∨ (L : ℚ) ≤ P it col
    · exfalso
      have hres : resAt L f v P r (it, col) = .skip := by
        simp only [resAt, colRes]
        rw [if_pos hin]
      simp [cntAt, runAt, hres] at hk2
    · by_cases hw : win_i1 L (P it col) r < win_i0 (P it col) r
      · exfalso
        have hres : resAt L f v P r (it, col) = .err := by
          simp only [resAt, colRes]
          rw [if_neg hin, if_pos hw]
        simp [cntAt, runAt, hres] at hk2
      · have hres : resAt L f v P r (it, col)
            = .run (colRun L (f it) (v it) (P it col) r col) := by
          simp only [resAt, colRes]
          rw [if_neg hin, if_neg hw]
        have hrun : runAt L f v P r (it, col)
            = colRun L (f it) (v it) (P it col) r col := by
          simp [runAt, hres]
        have hk3 : k < winLen L (P it col) r := by
          have hcnt : cntAt L f v P r (it, col) = winLen L (P it col) r := by
            simp [cntAt, hrun, colRun_length]
          rw [hcnt] at hk2
          exact hk2
        rw [hrun, colRun_getD L (f it) (v it) (P it col) r col k hk3]

/-- Witness for C7 at a concrete cube. -/
theorem flux_coo_monotone_and_column_field_witness :
    flux_coo 1 5 2 (fun _ i j => (10 * i + j : ℚ)) (fun _ _ _ => 1)
        (fun _ _ => 2) 1
      = some
        ([{ offset := -1, flux := 10, var := 1, colIdx := 0 },
          { offset := 0, flux := 20, var := 1, colIdx := 0 },
          { offset := -1, flux := 11, var := 1, colIdx := 1 },
          { offset := 0, flux := 21, var := 1, colIdx := 1 }],
         [[(0, 2), (2, 2)]]) ∧
    ((∀ row ∈ ([[(0, 2), (2, 2)]] : List (List (ℕ × ℕ))),
        row.Pairwise (fun a b => a.1 ≤ b.1)) ∧
     (∀ it col, it < 1 → col < 2 →
       ∀ k, k < ((([[((0:ℕ), (2:ℕ)), (2, 2)]]).getD it []).getD col (0, 0)).2 →
         (([{ offset := -1, flux := 10, var := 1, colIdx := 0 },
            { offset := 0, flux := 20, var := 1, colIdx := 0 },
            { offset := -1, flux := 11, var := 1, colIdx := 1 },
            { offset := 0, flux := 21, var := 1, colIdx := 1 }] : List Sample).getD
              ((([[((0:ℕ), (2:ℕ)), (2, 2)]].getD it []).getD col (0, 0)).1 + k)
              default).colIdx = (col : ℚ))) := by
  have hs : flux_coo 1 5 2 (fun _ i j => (10 * i + j : ℚ)) (fun _ _ _ => 1)
      (fun _ _ => 2) 1
      = some
        ([{ offset := -1, flux := 10, var := 1, colIdx := 0 },
          { offset := 0, flux := 20, var := 1, colIdx := 0 },
          { offset := -1, flux := 11, var := 1, colIdx := 1 },
          { offset := 0, flux := 21, var := 1, colIdx := 1 }],
         [[(0, 2), (2, 2)]]) := by
    norm_num [flux_coo, pairList, fluxLoop, colRes, colRun, win_i0, win_i1, pyRound,
      List.range_succ]
    simp only [Int.reduceToNat]
    norm_num [List.range_succ, Sample.mk.injEq]
  exact ⟨hs, flux_coo_monotone_and_column_field 1 5 2 _ _ _ 1 _ _ hs⟩

/-- C4: an out-of-range trace position yields exactly zero spectrum and
variance in `aperture_extract` (either `uniform` mode) and a recorded
count of zero in `flux_coo` whenever it returns; but the no-exception part
fails when every (integration, column) pair is out of range, in which case
`flux_coo` raises (empty `pix_list`, float dimension in `np.zeros`). -/
theorem out_of_range_default_zero :
    (∀ (nrows ncols : ℕ) (frame variance : ℕ → ℕ → ℚ) (ord_pos : ℕ → ℚ)
        (r : ℚ) (uniform : Bool) (col : ℕ), col < ncols →
      (ord_pos col < 0 ∨ (nrows : ℚ) ≤ ord_pos col) →
      (aperture_extract nrows ncols frame variance ord_pos r uniform).1.getD col
          default = .val 0 ∧
      (aperture_extract nrows ncols frame variance ord_pos r uniform).2.getD col
          default = .val 0) ∧
    (∀ (nints L ncols : ℕ) (f v : ℕ → ℕ → ℕ → ℚ) (P : ℕ → ℕ → ℚ) (r : ℚ)
        (pix : List Sample) (tb : List (List (ℕ × ℕ))),
      flux_coo nints L ncols f v P r = some (pix, tb) →
      ∀ it col, it < nints → col < ncols →
        (P it col < 0 ∨ (L : ℚ) ≤ P it col) →
        ((tb.getD it []).getD col (0, 0)).2 = 0) ∧
    flux_coo 2 4 3 (fun _ _ _ => 1) (fun _ _ _ => 1) (fun _ _ => 5) 1 = none := by
  refine ⟨?_, ?_, ?_⟩
  · intro nrows ncols frame variance ord_pos r uniform col hcol hout
    constructor <;>
    · simp only [aperture_extract]
      rw [getD_map_range _ default hcol]
      simp [extractCol, hout]
  · intro nints L ncols f v P r pix tb hs it col hit hcol hout
    have hentry := flux_coo_table_entry nints L ncols f v P r pix tb hs it col hit hcol
    rw [hentry]
    show cntAt L f v P r (it, col) = 0
    have hres : resAt L f v P r (it, col) = .skip := by
      simp only [resAt, colRes]
      rw [if_pos hout]
    simp [cntAt, runAt, hres]
  · norm_num [flux_coo, pairList, fluxLoop, colRes, List.range_succ]

/-- Witness for C4 at concrete inputs: an out-of-range column in
`aperture_extract` and an out-of-range pair in a returning `flux_coo`. -/
theorem out_of_range_default_zero_witness :
    (0 < 1 ∧ ((-3 : ℚ) < 0 ∨ ((5:ℕ) : ℚ) ≤ -3) ∧
      ((aperture_extract 5 1 (fun _ _ => 7) (fun _ _ => 7) (fun _ => -3) 1
          false).1.getD 0 default = .val 0 ∧
       (aperture_extract 5 1 (fun _ _ => 7) (fun _ _ => 7) (fun _ => -3) 1
          false).2.getD 0 default = .val 0)) ∧
    (flux_coo 1 5 2 (fun _ _ _ => 1) (fun _ _ _ => 1)
        (fun _ c => if c = 0 then (2 : ℚ) else -1) 1
      = some
        ([{ offset := -1, flux := 1, var := 1, colIdx := 0 },
          { offset := 0, flux := 1, var := 1, colIdx := 0 }],
         [[(0, 2), (2, 0)]]) ∧
     0 < 1 ∧ 1 < 2 ∧
     (((if (1:ℕ) = 0 then (2:ℚ) else -1) < 0 ∨
        ((5:ℕ) : ℚ) ≤ (if (1:ℕ) = 0 then (2:ℚ) else -1)) ∧
      (([[((0:ℕ), (2:ℕ)), (2, 0)]].getD 0 []).getD 1 (0, 0)).2 = 0)) := by
  have hs : flux_coo 1 5 2 (fun _ _ _ => 1) (fun _ _ _ => 1)
      (fun _ c => if c = 0 then (2 : ℚ) else -1) 1
      = some
        ([{ offset := -1, flux := 1, var := 1, colIdx := 0 },
          { offset := 0, flux := 1, var := 1, colIdx := 0 }],
         [[(0, 2), (2, 0)]]) := by
    norm_num [flux_coo, pairList, fluxLoop, colRes, colRun, win_i0, win_i1, pyRound,
      List.range_succ]
    simp only [Int.reduceToNat]
    norm_num [List.range_succ, Sample.mk.injEq]
  have hout : ((if (1:ℕ) = 0 then (2:ℚ) else -1) < 0 ∨
      ((5:ℕ) : ℚ) ≤ (if (1:ℕ) = 0 then (2:ℚ) else -1)) := by
    left
    norm_num
  exact ⟨⟨by decide, by left; norm_num,
      out_of_range_default_zero.1 5 1 (fun _ _ => 7) (fun _ _ => 7) (fun _ => -3) 1
        false 0 (by decide) (by left; norm_num)⟩,
    hs, by decide, by decide, hout,
    out_of_range_default_zero.2.1 1 5 2 _ _ _ 1 _ _ hs 0 1 (by decide) (by decide) hout⟩

/-- C9: on a cube whose only trace position 9.9 lies inside `[0, 10)`,
`flux_coo` still fails: `i0 = round(9.6) = 10` while `i1 = round(10.2) =
10` is clamped to 9, so `npix = -1` and `np.zeros((-1, 4))` raises; the
range check `p < nrows` does not exclude this. -/
theorem flux_coo_negative_window_error :
    ((0:ℚ) ≤ 99/10 ∧ (99/10 : ℚ) < ((10:ℕ) : ℚ)) ∧
    win_i0 (99/10) (3/10) = 10 ∧ win_i1 10 (99/10) (3/10) = 9 ∧
    flux_coo 1 10 1 (fun _ _ _ => 1) (fun _ _ _ => 1) (fun _ _ => 99/10) (3/10)
      = none := by
  refine ⟨⟨by norm_num, by norm_num⟩, ?_, ?_, ?_⟩
  · norm_num [win_i0, pyRound]
  · norm_num [win_i1, pyRound]
  · norm_num [flux_coo, pairList, fluxLoop, colRes, win_i0, win_i1, pyRound,
      List.range_succ]

/-! ### Machinery for norm_flux_coo -/

theorem normPass_length (pix arr : List Sample) (ind0 ind1 : ℕ) (norm : ℚ) :
    (normPass pix arr ind0 ind1 norm).length = arr.length := by
  simp [normPass]

theorem normPass_getD_not_covered (pix arr : List Sample) (ind0 ind1 : ℕ)
    (norm : ℚ) (j : ℕ) (d : Sample) (h : ¬(ind0 ≤ j ∧ j < ind1)) :
    (normPass pix arr ind0 ind1 norm).getD j d = arr.getD j d := by
  simp only [normPass, List.getD_eq_getElem?_getD, List.getElem?_mapIdx]
  cases harr : arr[j]? with
  | none => rfl
  | some a => simp [h]

theorem normPass_getD_covered (pix arr : List Sample) (ind0 ind1 : ℕ)
    (norm : ℚ) (j : ℕ) (h : ind0 ≤ j ∧ j < ind1) (hj : j < arr.length) :
    (normPass pix arr ind0 ind1 norm).getD j default
      = { arr.getD j default with
          flux := (pix.getD j default).flux / norm
          var := (pix.getD j default).var / norm ^ 2 } := by
  simp only [normPass, List.getD_eq_getElem?_getD, List.getElem?_mapIdx,
    List.getElem?_eq_getElem hj]
  simp [h]

theorem normStep_eq (pix : List Sample) (tb : List (List (ℕ × ℕ)))
    (rspec : Option (ℕ → ℕ → ℚ)) (arr : List Sample) (q : ℕ × ℕ) :
    normStep pix tb rspec arr q
      = normPass pix arr ((tb.getD q.1 []).getD q.2 (0, 0)).1
          (((tb.getD q.1 []).getD q.2 (0, 0)).1
            + ((tb.getD q.1 []).getD q.2 (0, 0)).2)
          (max (refNorm rspec q.1 q.2
            (colFluxSum pix ((tb.getD q.1 []).getD q.2 (0, 0)))) (1/100)) := by
  simp [normStep, colFluxSum]

theorem foldl_normStep_length (pix : List Sample) (tb : List (List (ℕ × ℕ)))
    (rspec : Option (ℕ → ℕ → ℚ)) (qs : List (ℕ × ℕ)) :
    ∀ arr, ((qs.foldl (normStep pix tb rspec) arr)).length = arr.length := by
  induction qs with
  | nil => intro arr; rfl
  | cons q rest ih =>
    intro arr
    rw [List.foldl_cons, ih, normStep_eq, normPass_length]

theorem foldl_normStep_not_covered (pix : List Sample)
    (tb : List (List (ℕ × ℕ))) (rspec : Option (ℕ → ℕ → ℚ))
    (qs : List (ℕ × ℕ)) (j : ℕ) (d : Sample)
    (h : ∀ q ∈ qs, ¬(((tb.getD q.1 []).getD q.2 (0, 0)).1 ≤ j ∧
      j < ((tb.getD q.1 []).getD q.2 (0, 0)).1
        + ((tb.getD q.1 []).getD q.2 (0, 0)).2)) :
    ∀ arr, (qs.foldl (normStep pix tb rspec) arr).getD j d = arr.getD j d := by
  induction qs with
  | nil => intro arr; rfl
  | cons q rest ih =>
    intro arr
    rw [List.foldl_cons, ih (fun x hx => h x (List.mem_cons_of_mem q hx)),
      normStep_eq, normPass_getD_not_covered]
    exact h q (List.mem_cons_self q rest)

theorem flux_coo_pix_length (nints L ncols : ℕ) (f v : ℕ → ℕ → ℕ → ℚ)
    (P : ℕ → ℕ → ℚ) (r : ℚ) (pix : List Sample) (tb : List (List (ℕ × ℕ)))
    (hs : flux_coo nints L ncols f v P r = some (pix, tb)) :
    pix.length = ((pairList nints ncols).map (cntAt L f v P r)).sum := by
  obtain ⟨herr, hpix, htb, hk⟩ := flux_coo_eq_some _ _ _ _ _ _ _ _ _ hs
  rw [hpix, List.length_flatten, List.map_map]
  rfl

theorem prefix_sum_succ {α : Type} (c : α → ℕ) (l : List α) (i : ℕ) (d : α)
    (h : i < l.length) :
    ((l.take (i + 1)).map c).sum = ((l.take i).map c).sum + c (l.getD i d) := by
  rw [List.take_succ, List.map_append, List.sum_append,
    List.getElem?_eq_getElem h]
  simp [List.getD_eq_getElem?_getD, List.getElem?_eq_getElem, h]

theorem prefix_sum_mono {α : Type} (c : α → ℕ) (l : List α) (i1 i2 : ℕ)
    (h : i1 ≤ i2) :
    ((l.take i1).map c).sum ≤ ((l.take i2).map c).sum := by
  have h2 : l.take i2 = l.take i1 ++ (l.drop i1).take (i2 - i1) := by
    rw [← List.take_add, Nat.add_sub_cancel' h]
  rw [h2, List.map_append, List.sum_append]
  exact Nat.le_add_right _ _

theorem headD_eq_getD {α : Type} (l : List α) (d : α) : l.headD d = l.getD 0 d := by
  cases l <;> rfl

theorem pairList_getD_index (nints ncols m : ℕ) (h : m < nints * ncols) :
    (pairList nints ncols).getD m (0, 0) = (m / ncols, m % ncols) ∧
    m / ncols < nints ∧ m % ncols < ncols := by
  have hc : 0 < ncols := by
    rcases Nat.eq_zero_or_pos ncols with hc0 | hc0
    · rw [hc0, Nat.mul_zero] at h
      exact absurd h (Nat.not_lt_zero m)
    · exact hc0
  have hmod : m % ncols < ncols := Nat.mod_lt _ hc
  have hdiv : m / ncols < nints := (Nat.div_lt_iff_lt_mul hc).mpr h
  have heq : m / ncols * ncols + m % ncols = m := by
    rw [Nat.mul_comm]
    exact Nat.div_add_mod m ncols
  refine ⟨?_, hdiv, hmod⟩
  conv_lhs => rw [← heq]
  exact pairList_getD nints ncols _ _ hdiv hmod

theorem pair_index_eq (nints ncols m : ℕ) (h : m < nints * ncols) :
    ((pairList nints ncols).getD m (0, 0)).1 * ncols
      + ((pairList nints ncols).getD m (0, 0)).2 = m := by
  obtain ⟨hgd, _, _⟩ := pairList_getD_index nints ncols m h
  rw [hgd]
  show m / ncols * ncols + m % ncols = m
  rw [Nat.mul_comm]
  exact Nat.div_add_mod m ncols

theorem table_entry_at_index (nints L ncols : ℕ) (f v : ℕ → ℕ → ℕ → ℚ)
    (P : ℕ → ℕ → ℚ) (r : ℚ) (pix : List Sample) (tb : List (List (ℕ × ℕ)))
    (hs : flux_coo nints L ncols f v P r = some (pix, tb))
    (m : ℕ) (hm : m < nints * ncols) :
    (tb.getD ((pairList nints ncols).getD m (0, 0)).1 []).getD
        ((pairList nints ncols).getD m (0, 0)).2 (0, 0)
      = ((((pairList nints ncols).take m).map (cntAt L f v P r)).sum,
         cntAt L f v P r ((pairList nints ncols).getD m (0, 0))) := by
  obtain ⟨hgd, hdiv, hmod⟩ := pairList_getD_index nints ncols m hm
  have heq : m / ncols * ncols + m % ncols = m := by
    rw [Nat.mul_comm]
    exact Nat.div_add_mod m ncols
  have h := flux_coo_table_entry nints L ncols f v P r pix tb hs
    (m / ncols) (m % ncols) hdiv hmod
  rw [heq] at h
  rw [hgd]
  exact h

theorem norm_flux_coo_iterates (nints L ncols : ℕ) (f v : ℕ → ℕ → ℕ → ℚ)
    (P : ℕ → ℕ → ℚ) (r : ℚ) (pix : List Sample) (tb : List (List (ℕ × ℕ)))
    (hs : flux_coo nints L ncols f v P r = some (pix, tb))
    (hn : 0 < nints) (_hc : 0 < ncols) (rspec : Option (ℕ → ℕ → ℚ)) :
    norm_flux_coo pix tb rspec
      = (pairList nints ncols).foldl (normStep pix tb rspec) pix := by
  obtain ⟨herr, hpix, htb, hk0⟩ := flux_coo_eq_some _ _ _ _ _ _ _ _ _ hs
  have htblen : tb.length = nints := by
    rw [htb, List.length_map, List.length_range]
  have hFlen : (startsOf (cntAt L f v P r) 0 (pairList nints ncols)).length
      = nints * ncols := by
    rw [startsOf_length, pairList_length]
  have hhead : (tb.headD []).length = ncols := by
    rw [headD_eq_getD, htb, getD_map_range _ _ hn, List.length_take,
      List.length_drop, Nat.zero_mul, Nat.sub_zero, hFlen]
    exact Nat.min_eq_left (Nat.le_mul_of_pos_left ncols hn)
  rw [norm_flux_coo, htblen, hhead]

/-- Value of `norm_flux_coo` at position `start + k` of the run of a given
(integration, column) pair, for tables produced by `flux_coo`: the flux is
divided by the floored norm and the variance by its square; offset and
column index are unchanged. -/
theorem norm_flux_coo_run_getD (nints L ncols : ℕ) (f v : ℕ → ℕ → ℕ → ℚ)
    (P : ℕ → ℕ → ℚ) (r : ℚ) (pix : List Sample) (tb : List (List (ℕ × ℕ)))
    (hs : flux_coo nints L ncols f v P r = some (pix, tb))
    (rspec : Option (ℕ → ℕ → ℚ)) (it col : ℕ) (hit : it < nints)
    (hcol : col < ncols) (k : ℕ)
    (hk : k < ((tb.getD it []).getD col (0, 0)).2) :
    (norm_flux_coo pix tb rspec).getD
        (((tb.getD it []).getD col (0, 0)).1 + k) default
      = { pix.getD (((tb.getD it []).getD col (0, 0)).1 + k) default with
          flux := (pix.getD (((tb.getD it []).getD col (0, 0)).1 + k)
              default).flux
            / max (refNorm rspec it col
                (colFluxSum pix ((tb.getD it []).getD col (0, 0)))) (1/100)
          var := (pix.getD (((tb.getD it []).getD col (0, 0)).1 + k)
              default).var
            / (max (refNorm rspec it col
                (colFluxSum pix ((tb.getD it []).getD col (0, 0)))) (1/100)) ^ 2 } := by
  have hentry := flux_coo_table_entry nints L ncols f v P r pix tb hs it col hit hcol
  have hpslen : (pairList nints ncols).length = nints * ncols :=
    pairList_length nints ncols
  have hjstar : it * ncols + col < nints * ncols :=
    pair_index_lt nints ncols it col hit hcol
  have hjlt : it * ncols + col < (pairList nints ncols).length := by
    rw [hpslen]
    exact hjstar
  have hcnt : ((tb.getD it []).getD col (0, 0)).2 = cntAt L f v P r (it, col) := by
    rw [hentry]
  have hstart : ((tb.getD it []).getD col (0, 0)).1
      = (((pairList nints ncols).take (it * ncols + col)).map
          (cntAt L f v P r)).sum := by
    rw [hentry]
  have hk2 : k < cntAt L f v P r (it, col) := by
    rw [← hcnt]
    exact hk
  have hplen := flux_coo_pix_length nints L ncols f v P r pix tb hs
  have hSsucc : (((pairList nints ncols).take (it * ncols + col + 1)).map
        (cntAt L f v P r)).sum
      = (((pairList nints ncols).take (it * ncols + col)).map
          (cntAt L f v P r)).sum + cntAt L f v P r (it, col) := by
    rw [prefix_sum_succ (cntAt L f v P r) _ _ ((0, 0) : ℕ × ℕ) hjlt,
      pairList_getD nints ncols it col hit hcol]
  have hjT : ((tb.getD it []).getD col (0, 0)).1 + k < pix.length := by
    rw [hstart, hplen]
    have h1 : (((pairList nints ncols).take (it * ncols + col)).map
          (cntAt L f v P r)).sum + k
        < (((pairList nints ncols).take (it * ncols + col + 1)).map
            (cntAt L f v P r)).sum := by
      rw [hSsucc]
      exact Nat.add_lt_add_left hk2 _
    have h2 : (((pairList nints ncols).take (it * ncols + col + 1)).map
          (cntAt L f v P r)).sum
        ≤ (((pairList nints ncols).take
            ((pairList nints ncols).length)).map (cntAt L f v P r)).sum :=
      prefix_sum_mono _ _ _ _ (by rw [hpslen]; exact hjstar)
    rw [List.take_length] at h2
    exact Nat.lt_of_lt_of_le h1 h2
  have hq : (pairList nints ncols)[it * ncols + col] = (it, col) := by
    have h1 : (pairList nints ncols).getD (it * ncols + col) (0, 0)
        = (pairList nints ncols)[it * ncols + col] := by
      simp [List.getD_eq_getElem?_getD, List.getElem?_eq_getElem, hjlt]
    rw [← h1, pairList_getD nints ncols it col hit hcol]
  have hdropsplit : (pairList nints ncols).drop (it * ncols + col)
      = (it, col) :: (pairList nints ncols).drop (it * ncols + col + 1) := by
    rw [List.drop_eq_getElem_cons hjlt, hq]
  have hsplit : pairList nints ncols
      = (pairList nints ncols).take (it * ncols + col)
        ++ (it, col) :: (pairList nints ncols).drop (it * ncols + col + 1) := by
    conv_lhs => rw [← List.take_append_drop (it * ncols + col) (pairList nints ncols)]
    rw [hdropsplit]
  have hpre : ∀ q ∈ (pairList nints ncols).take (it * ncols + col),
      ¬(((tb.getD q.1 []).getD q.2 (0, 0)).1
          ≤ ((tb.getD it []).getD col (0, 0)).1 + k ∧
        ((tb.getD it []).getD col (0, 0)).1 + k
          < ((tb.getD q.1 []).getD q.2 (0, 0)).1
            + ((tb.getD q.1 []).getD q.2 (0, 0)).2) := by
    intro q hqmem
    obtain ⟨i, hilt, hiq⟩ := List.mem_iff_getElem.mp hqmem
    have hitake : i < it * ncols + col := by
      rw [List.length_take] at hilt
      omega
    have hlen2 : i < (pairList nints ncols).length := by
      omega
    have hq2 : q = (pairList nints ncols)[i] := by
      rw [← hiq]
      simp [List.getElem_take]
    have hm : i < nints * ncols := by
      rw [← hpslen]
      exact hlen2
    have hqgd : (pairList nints ncols).getD i (0, 0) = q := by
      rw [hq2]
      simp [List.getD_eq_getElem?_getD, List.getElem?_eq_getElem, hlen2]
    have hte := table_entry_at_index nints L ncols f v P r pix tb hs i hm
    rw [hqgd] at hte
    rw [hte, hstart]
    have hSi : (((pairList nints ncols).take (i + 1)).map (cntAt L f v P r)).sum
        = (((pairList nints ncols).take i).map (cntAt L f v P r)).sum
          + cntAt L f v P r q := by
      rw [prefix_sum_succ (cntAt L f v P r) _ _ ((0, 0) : ℕ × ℕ) hlen2, hqgd]
    have hmono : (((pairList nints ncols).take (i + 1)).map
          (cntAt L f v P r)).sum
        ≤ (((pairList nints ncols).take (it * ncols + col)).map
            (cntAt L f v P r)).sum :=
      prefix_sum_mono _ _ _ _ (by omega)
    intro hcontra
    omega
  have hpost : ∀ q ∈ (pairList nints ncols).drop (it * ncols + col + 1),
      ¬(((tb.getD q.1 []).getD q.2 (0, 0)).1
          ≤ ((tb.getD it []).getD col (0, 0)).1 + k ∧
        ((tb.getD it []).getD col (0, 0)).1 + k
          < ((tb.getD q.1 []).getD q.2 (0, 0)).1
            + ((tb.getD q.1 []).getD q.2 (0, 0)).2) := by
    intro q hqmem
    obtain ⟨i, hilt, hiq⟩ := List.mem_iff_getElem.mp hqmem
    have hlen2 : it * ncols + col + 1 + i < (pairList nints ncols).length := by
      rw [List.length_drop] at hilt
      omega
    have hq2 : q = (pairList nints ncols)[it * ncols + col + 1 + i] := by
      rw [← hiq]
      simp [List.getElem_drop]
    have hm : it * ncols + col + 1 + i < nints * ncols := by
      rw [← hpslen]
      exact hlen2
    have hqgd : (pairList nints ncols).getD (it * ncols + col + 1 + i) (0, 0)
        = q := by
      rw [hq2]
      simp [List.getD_eq_getElem?_getD, List.getElem?_eq_getElem, hlen2]
    have hte := table_entry_at_index nints L ncols f v P r pix tb hs _ hm
    rw [hqgd] at hte
    rw [hte, hstart]
    have hmono : (((pairList nints ncols).take (it * ncols + col + 1)).map
          (cntAt L f v P r)).sum
        ≤ (((pairList nints ncols).take (it * ncols + col + 1 + i)).map
            (cntAt L f v P r)).sum :=
      prefix_sum_mono _ _ _ _ (by omega)
    intro hcontra
    omega
  rw [norm_flux_coo_iterates nints L ncols f v P r pix tb hs
    (Nat.lt_of_le_of_lt (Nat.zero_le it) hit)
    (Nat.lt_of_le_of_lt (Nat.zero_le col) hcol) rspec]
  conv_lhs => rw [hsplit]
  rw [List.foldl_append, List.foldl_cons]
  rw [foldl_normStep_not_covered pix tb rspec _ _ default hpost]
  have hAlen : (((pairList nints ncols).take (it * ncols + col)).foldl
      (normStep pix tb rspec) pix).length = pix.length :=
    foldl_normStep_length pix tb rspec _ pix
  have hA : (((pairList nints ncols).take (it * ncols + col)).foldl
      (normStep pix tb rspec) pix).getD
        (((tb.getD it []).getD col (0, 0)).1 + k) default
      = pix.getD (((tb.getD it []).getD col (0, 0)).1 + k) default :=
    foldl_normStep_not_covered pix tb rspec _ _ default hpre pix
  rw [normStep_eq]
  rw [normPass_getD_covered pix _ _ _ _ _
    ⟨Nat.le_add_right _ _, Nat.add_lt_add_left hk _⟩
    (by rw [hAlen]; exact hjT)]
  rw [hA]

theorem norm_flux_coo_length (nints L ncols : ℕ) (f v : ℕ → ℕ → ℕ → ℚ)
    (P : ℕ → ℕ → ℚ) (r : ℚ) (pix : List Sample) (tb : List (List (ℕ × ℕ)))
    (hs : flux_coo nints L ncols f v P r = some (pix, tb))
    (hn : 0 < nints) (hc : 0 < ncols) (rspec : Option (ℕ → ℕ → ℚ)) :
    (norm_flux_coo pix tb rspec).length = pix.length := by
  rw [norm_flux_coo_iterates nints L ncols f v P r pix tb hs hn hc rspec]
  exact foldl_normStep_length pix tb rspec _ pix

theorem run_in_bounds (nints L ncols : ℕ) (f v : ℕ → ℕ → ℕ → ℚ)
    (P : ℕ → ℕ → ℚ) (r : ℚ) (pix : List Sample) (tb : List (List (ℕ × ℕ)))
    (hs : flux_coo nints L ncols f v P r = some (pix, tb))
    (it col : ℕ) (hit : it < nints) (hcol : col < ncols) :
    ((tb.getD it []).getD col (0, 0)).1 + ((tb.getD it []).getD col (0, 0)).2
      ≤ pix.length := by
  have hentry := flux_coo_table_entry nints L ncols f v P r pix tb hs it col hit hcol
  have hjlt : it * ncols + col < (pairList nints ncols).length := by
    rw [pairList_length]
    exact pair_index_lt nints ncols it col hit hcol
  rw [hentry]
  show (((pairList nints ncols).take (it * ncols + col)).map (cntAt L f v P r)).sum
      + cntAt L f v P r (it, col) ≤ pix.length
  rw [flux_coo_pix_length nints L ncols f v P r pix tb hs]
  have hSsucc : (((pairList nints ncols).take (it * ncols + col + 1)).map
        (cntAt L f v P r)).sum
      = (((pairList nints ncols).take (it * ncols + col)).map
          (cntAt L f v P r)).sum + cntAt L f v P r (it, col) := by
    rw [prefix_sum_succ (cntAt L f v P r) _ _ ((0, 0) : ℕ × ℕ) hjlt,
      pairList_getD nints ncols it col hit hcol]
  rw [← hSsucc]
  have h2 := prefix_sum_mono (cntAt L f v P r) (pairList nints ncols)
    (it * ncols + col + 1) (pairList nints ncols).length (by omega)
  rw [List.take_length] at h2
  exact h2

theorem drop_take_eq_map_range (l : List Sample) (a m : ℕ)
    (h : a + m ≤ l.length) :
    (l.drop a).take m = (List.range m).map (fun k => l.getD (a + k) default) := by
  apply List.ext_getElem
  · simp only [List.length_take, List.length_drop, List.length_map,
      List.length_range]
    omega
  · intro i h1 h2
    have hi_m : i < m := by
      simp only [List.length_take, List.length_drop] at h1
      omega
    have hai : a + i < l.length := by omega
    simp [List.getElem_take, List.getElem_drop, List.getElem_map,
      List.getElem_range, List.getD_eq_getElem?_getD, List.getElem?_eq_getElem, hai]

theorem slice_flux_sum_eq (l : List Sample) (a m : ℕ) (h : a + m ≤ l.length) :
    (((l.drop a).take m).map Sample.flux).sum
      = ∑ k in Finset.range m, (l.getD (a + k) default).flux := by
  rw [drop_take_eq_map_range l a m h, List.map_map, list_sum_range_eq]
  rfl

/-! ### Claims about norm_flux_coo -/

/-- C3: for tables produced by `flux_coo`, `norm_flux_coo` computes for
each (integration, column) the norm as the reference spectrum value when
supplied and otherwise the flux sum over the run of that column, floors it at
`min_norm = 0.01`, and returns a list of the same length in which the
flux of the run is divided by the norm and its variance by its square, offsets
and column indices unchanged (the embedding is pure, so the input list is
never mutated; zero-count columns rescale nothing). -/
theorem norm_flux_coo_correct (nints L ncols : ℕ) (f v : ℕ → ℕ → ℕ → ℚ)
    (P : ℕ → ℕ → ℚ) (r : ℚ) (pix : List Sample) (tb : List (List (ℕ × ℕ)))
    (hs : flux_coo nints L ncols f v P r = some (pix, tb))
    (rspec : Option (ℕ → ℕ → ℚ)) (it col : ℕ) (hit : it < nints)
    (hcol : col < ncols) :
    (norm_flux_coo pix tb rspec).length = pix.length ∧
    ∀ k, k < ((tb.getD it []).getD col (0, 0)).2 →
      (norm_flux_coo pix tb rspec).getD
          (((tb.getD it []).getD col (0, 0)).1 + k) default
        = { pix.getD (((tb.getD it []).getD col (0, 0)).1 + k) default with
            flux := (pix.getD (((tb.getD it []).getD col (0, 0)).1 + k)
                default).flux
              / max (refNorm rspec it col
                  (colFluxSum pix ((tb.getD it []).getD col (0, 0)))) (1/100)
            var := (pix.getD (((tb.getD it []).getD col (0, 0)).1 + k)
                default).var
              / (max (refNorm rspec it col
                  (colFluxSum pix ((tb.getD it []).getD col (0, 0)))) (1/100)) ^ 2 } := by
  constructor
  · exact norm_flux_coo_length nints L ncols f v P r pix tb hs
      (Nat.lt_of_le_of_lt (Nat.zero_le it) hit)
      (Nat.lt_of_le_of_lt (Nat.zero_le col) hcol) rspec
  · intro k hk
    exact norm_flux_coo_run_getD nints L ncols f v P r pix tb hs rspec
      it col hit hcol k hk

/-- Witness for C3 at a concrete cube with self-normalization. -/
theorem norm_flux_coo_correct_witness :
    flux_coo 1 5 2 (fun _ i j => (10 * i + j : ℚ)) (fun _ _ _ => 1)
        (fun _ _ => 2) 1
      = some
        ([{ offset := -1, flux := 10, var := 1, colIdx := 0 },
          { offset := 0, flux := 20, var := 1, colIdx := 0 },
          { offset := -1, flux := 11, var := 1, colIdx := 1 },
          { offset := 0, flux := 21, var := 1, colIdx := 1 }],
         [[(0, 2), (2, 2)]]) ∧
    0 < 1 ∧ 0 < 2 ∧
    ((norm_flux_coo
        [{ offset := -1, flux := 10, var := 1, colIdx := 0 },
         { offset := 0, flux := 20, var := 1, colIdx := 0 },
         { offset := -1, flux := 11, var := 1, colIdx := 1 },
         { offset := 0, flux := 21, var := 1, colIdx := 1 }]
        [[(0, 2), (2, 2)]] none).length
      = ([{ offset := -1, flux := 10, var := 1, colIdx := 0 },
          { offset := 0, flux := 20, var := 1, colIdx := 0 },
          { offset := -1, flux := 11, var := 1, colIdx := 1 },
          { offset := 0, flux := 21, var := 1, colIdx := 1 }] : List Sample).length ∧
     ∀ k, k < (([[((0:ℕ), (2:ℕ)), (2, 2)]].getD 0 []).getD 0 (0, 0)).2 →
       (norm_flux_coo
          [{ offset := -1, flux := 10, var := 1, colIdx := 0 },
           { offset := 0, flux := 20, var := 1, colIdx := 0 },
           { offset := -1, flux := 11, var := 1, colIdx := 1 },
           { offset := 0, flux := 21, var := 1, colIdx := 1 }]
          [[(0, 2), (2, 2)]] none).getD
           ((([[((0:ℕ), (2:ℕ)), (2, 2)]].getD 0 []).getD 0 (0, 0)).1 + k) default
         = { ([{ offset := -1, flux := 10, var := 1, colIdx := 0 },
              { offset := 0, flux := 20, var := 1, colIdx := 0 },
              { offset := -1, flux := 11, var := 1, colIdx := 1 },
              { offset := 0, flux := 21, var := 1, colIdx := 1 }] : List Sample).getD
                ((([[((0:ℕ), (2:ℕ)), (2, 2)]].getD 0 []).getD 0 (0, 0)).1 + k)
                default with
             flux := (([{ offset := -1, flux := 10, var := 1, colIdx := 0 },
                { offset := 0, flux := 20, var := 1, colIdx := 0 },
                { offset := -1, flux := 11, var := 1, colIdx := 1 },
                { offset := 0, flux := 21, var := 1, colIdx := 1 }] : List Sample).getD
                  ((([[((0:ℕ), (2:ℕ)), (2, 2)]].getD 0 []).getD 0 (0, 0)).1 + k)
                  default).flux
               / max (refNorm none 0 0
                   (colFluxSum
                     [{ offset := -1, flux := 10, var := 1, colIdx := 0 },
                      { offset := 0, flux := 20, var := 1, colIdx := 0 },
                      { offset := -1, flux := 11, var := 1, colIdx := 1 },
                      { offset := 0, flux := 21, var := 1, colIdx := 1 }]
                     (([[((0:ℕ), (2:ℕ)), (2, 2)]].getD 0 []).getD 0 (0, 0)))) (1/100)
             var := (([{ offset := -1, flux := 10, var := 1, colIdx := 0 },
                { offset := 0, flux := 20, var := 1, colIdx := 0 },
                { offset := -1, flux := 11, var := 1, colIdx := 1 },
                { offset := 0, flux := 21, var := 1, colIdx := 1 }] : List Sample).getD
                  ((([[((0:ℕ), (2:ℕ)), (2, 2)]].getD 0 []).getD 0 (0, 0)).1 + k)
                  default).var
               / (max (refNorm none 0 0
                   (colFluxSum
                     [{ offset := -1, flux := 10, var := 1, colIdx := 0 },
                      { offset := 0, flux := 20, var := 1, colIdx := 0 },
                      { offset := -1, flux := 11, var := 1, colIdx := 1 },
                      { offset := 0, flux := 21, var := 1, colIdx := 1 }]
                     (([[((0:ℕ), (2:ℕ)), (2, 2)]].getD 0 []).getD 0 (0, 0)))) (1/100)) ^ 2 }) := by
  have hs : flux_coo 1 5 2 (fun _ i j => (10 * i + j : ℚ)) (fun _ _ _ => 1)
      (fun _ _ => 2) 1
      = some
        ([{ offset := -1, flux := 10, var := 1, colIdx := 0 },
          { offset := 0, flux := 20, var := 1, colIdx := 0 },
          { offset := -1, flux := 11, var := 1, colIdx := 1 },
          { offset := 0, flux := 21, var := 1, colIdx := 1 }],
         [[(0, 2), (2, 2)]]) := by
    norm_num [flux_coo, pairList, fluxLoop, colRes, colRun, win_i0, win_i1, pyRound,
      List.range_succ]
    simp only [Int.reduceToNat]
    norm_num [List.range_succ, Sample.mk.injEq]
  exact ⟨hs, by decide, by decide,
    norm_flux_coo_correct 1 5 2 _ _ _ 1 _ _ hs none 0 0 (by decide) (by decide)⟩

/-- C8: with the true column flux sums supplied as the reference spectrum,
the normalized flux of a non-empty column sums to exactly 1 when the
column sum is at least `min_norm = 0.01`, and to `true_sum / min_norm < 1`
when the true sum is below `min_norm`. -/
theorem norm_flux_coo_unit_sum (nints L ncols : ℕ) (f v : ℕ → ℕ → ℕ → ℚ)
    (P : ℕ → ℕ → ℚ) (r : ℚ) (pix : List Sample) (tb : List (List (ℕ × ℕ)))
    (hs : flux_coo nints L ncols f v P r = some (pix, tb))
    (it col : ℕ) (hit : it < nints) (hcol : col < ncols) :
    ((1/100 : ℚ) ≤ colFluxSum pix ((tb.getD it []).getD col (0, 0)) →
      ((((norm_flux_coo pix tb (some (fun i c =>
            colFluxSum pix ((tb.getD i []).getD c (0, 0))))).drop
          ((tb.getD it []).getD col (0, 0)).1).take
          ((tb.getD it []).getD col (0, 0)).2).map Sample.flux).sum = 1) ∧
    (colFluxSum pix ((tb.getD it []).getD col (0, 0)) < 1/100 →
      ((((norm_flux_coo pix tb (some (fun i c =>
            colFluxSum pix ((tb.getD i []).getD c (0, 0))))).drop
          ((tb.getD it []).getD col (0, 0)).1).take
          ((tb.getD it []).getD col (0, 0)).2).map Sample.flux).sum
        = colFluxSum pix ((tb.getD it []).getD col (0, 0)) / (1/100) ∧
      colFluxSum pix ((tb.getD it []).getD col (0, 0)) / (1/100) < 1) := by
  have hbound := run_in_bounds nints L ncols f v P r pix tb hs it col hit hcol
  have houtlen := norm_flux_coo_length nints L ncols f v P r pix tb hs
    (Nat.lt_of_le_of_lt (Nat.zero_le it) hit)
    (Nat.lt_of_le_of_lt (Nat.zero_le col) hcol)
    (some (fun i c => colFluxSum pix ((tb.getD i []).getD c (0, 0))))
  have hsum : ((((norm_flux_coo pix tb (some (fun i c =>
        colFluxSum pix ((tb.getD i []).getD c (0, 0))))).drop
      ((tb.getD it []).getD col (0, 0)).1).take
      ((tb.getD it []).getD col (0, 0)).2).map Sample.flux).sum
      = colFluxSum pix ((tb.getD it []).getD col (0, 0))
        / max (colFluxSum pix ((tb.getD it []).getD col (0, 0))) (1/100) := by
    rw [slice_flux_sum_eq _ _ _ (by rw [houtlen]; exact hbound)]
    have hterm : ∀ k ∈ Finset.range ((tb.getD it []).getD col (0, 0)).2,
        ((norm_flux_coo pix tb (some (fun i c =>
            colFluxSum pix ((tb.getD i []).getD c (0, 0))))).getD
          (((tb.getD it []).getD col (0, 0)).1 + k) default).flux
          = (pix.getD (((tb.getD it []).getD col (0, 0)).1 + k) default).flux
            / max (colFluxSum pix ((tb.getD it []).getD col (0, 0))) (1/100) := by
      intro k hkmem
      rw [norm_flux_coo_run_getD nints L ncols f v P r pix tb hs _ it col hit hcol
        k (Finset.mem_range.mp hkmem)]
      rfl
    rw [Finset.sum_congr rfl hterm, ← Finset.sum_div]
    rw [← slice_flux_sum_eq pix _ _ hbound]
    rfl
  constructor
  · intro hge
    rw [hsum, max_eq_left hge]
    exact div_self (by linarith)
  · intro hlt
    refine ⟨by rw [hsum, max_eq_right (le_of_lt hlt)], ?_⟩
    rw [div_lt_one (by norm_num)]
    exact hlt

/-- Witness for C8 at a concrete cube: column 0 has flux sum 30 ≥ 0.01,
so the normalized fluxes sum to 1. -/
theorem norm_flux_coo_unit_sum_witness :
    flux_coo 1 5 2 (fun _ i j => (10 * i + j : ℚ)) (fun _ _ _ => 1)
        (fun _ _ => 2) 1
      = some
        ([{ offset := -1, flux := 10, var := 1, colIdx := 0 },
          { offset := 0, flux := 20, var := 1, colIdx := 0 },
          { offset := -1, flux := 11, var := 1, colIdx := 1 },
          { offset := 0, flux := 21, var := 1, colIdx := 1 }],
         [[(0, 2), (2, 2)]]) ∧
    0 < 1 ∧ 0 < 2 ∧
    (((1/100 : ℚ) ≤ colFluxSum
        [{ offset := -1, flux := 10, var := 1, colIdx := 0 },
         { offset := 0, flux := 20, var := 1, colIdx := 0 },
         { offset := -1, flux := 11, var := 1, colIdx := 1 },
         { offset := 0, flux := 21, var := 1, colIdx := 1 }]
        (([[((0:ℕ), (2:ℕ)), (2, 2)]].getD 0 []).getD 0 (0, 0)) →
      ((((norm_flux_coo
          [{ offset := -1, flux := 10, var := 1, colIdx := 0 },
           { offset := 0, flux := 20, var := 1, colIdx := 0 },
           { offset := -1, flux := 11, var := 1, colIdx := 1 },
           { offset := 0, flux := 21, var := 1, colIdx := 1 }]
          [[(0, 2), (2, 2)]] (some (fun i c =>
            colFluxSum
              [{ offset := -1, flux := 10, var := 1, colIdx := 0 },
               { offset := 0, flux := 20, var := 1, colIdx := 0 },
               { offset := -1, flux := 11, var := 1, colIdx := 1 },
               { offset := 0, flux := 21, var := 1, colIdx := 1 }]
              (([[((0:ℕ), (2:ℕ)), (2, 2)]].getD i []).getD c (0, 0))))).drop
          (([[((0:ℕ), (2:ℕ)), (2, 2)]].getD 0 []).getD 0 (0, 0)).1).take
          (([[((0:ℕ), (2:ℕ)), (2, 2)]].getD 0 []).getD 0 (0, 0)).2).map
            Sample.flux).sum = 1) ∧
     (colFluxSum
        [{ offset := -1, flux := 10, var := 1, colIdx := 0 },
         { offset := 0, flux := 20, var := 1, colIdx := 0 },
         { offset := -1, flux := 11, var := 1, colIdx := 1 },
         { offset := 0, flux := 21, var := 1, colIdx := 1 }]
        (([[((0:ℕ), (2:ℕ)), (2, 2)]].getD 0 []).getD 0 (0, 0)) < 1/100 →
      ((((norm_flux_coo
          [{ offset := -1, flux := 10, var := 1, colIdx := 0 },
           { offset := 0, flux := 20, var := 1, colIdx := 0 },
           { offset := -1, flux := 11, var := 1, colIdx := 1 },
           { offset := 0, flux := 21, var := 1, colIdx := 1 }]
          [[(0, 2), (2, 2)]] (some (fun i c =>
            colFluxSum
              [{ offset := -1, flux := 10, var := 1, colIdx := 0 },
               { offset := 0, flux := 20, var := 1, colIdx := 0 },
               { offset := -1, flux := 11, var := 1, colIdx := 1 },
               { offset := 0, flux := 21, var := 1, colIdx := 1 }]
              (([[((0:ℕ), (2:ℕ)), (2, 2)]].getD i []).getD c (0, 0))))).drop
          (([[((0:ℕ), (2:ℕ)), (2, 2)]].getD 0 []).getD 0 (0, 0)).1).take
          (([[((0:ℕ), (2:ℕ)), (2, 2)]].getD 0 []).getD 0 (0, 0)).2).map
            Sample.flux).sum
        = colFluxSum
            [{ offset := -1, flux := 10, var := 1, colIdx := 0 },
             { offset := 0, flux := 20, var := 1, colIdx := 0 },
             { offset := -1, flux := 11, var := 1, colIdx := 1 },
             { offset := 0, flux := 21, var := 1, colIdx := 1 }]
            (([[((0:ℕ), (2:ℕ)), (2, 2)]].getD 0 []).getD 0 (0, 0)) / (1/100) ∧
      colFluxSum
          [{ offset := -1, flux := 10, var := 1, colIdx := 0 },
           { offset := 0, flux := 20, var := 1, colIdx := 0 },
           { offset := -1, flux := 11, var := 1, colIdx := 1 },
           { offset := 0, flux := 21, var := 1, colIdx := 1 }]
          (([[((0:ℕ), (2:ℕ)), (2, 2)]].getD 0 []).getD 0 (0, 0)) / (1/100) < 1)) := by
  have hs : flux_coo 1 5 2 (fun _ i j => (10 * i + j : ℚ)) (fun _ _ _ => 1)
      (fun _ _ => 2) 1
      = some
        ([{ offset := -1, flux := 10, var := 1, colIdx := 0 },
          { offset := 0, flux := 20, var := 1, colIdx := 0 },
          { offset := -1, flux := 11, var := 1, colIdx := 1 },
          { offset := 0, flux := 21, var := 1, colIdx := 1 }],
         [[(0, 2), (2, 2)]]) := by
    norm_num [flux_coo, pairList, fluxLoop, colRes, colRun, win_i0, win_i1, pyRound,
      List.range_succ]
    simp only [Int.reduceToNat]
    norm_num [List.range_succ, Sample.mk.injEq]
  exact ⟨hs, by decide, by decide,
    norm_flux_coo_unit_sum 1 5 2 _ _ _ 1 _ _ hs 0 0 (by decide) (by decide)⟩

end Stark
